import Mathlib

/-!
Verification development for the contract-ingestion core of the
Contract-Validation-AI-Hub backend.

The Python sources embedded here (shallowly, over `List Char` for strings,
`Int`/`Nat` for Python integers) are:
  * `app/utils/docx_highlight.py`   — `risk_to_color`, `split_paragraph_by_spans`
  * `app/services/compliance_highlighter.py` — `ComplianceHighlighter._add_clause`
  * `app/services/chunk.py`         — `chunk_text`
  * `app/services/sectioner.py`     — `section_text_with_pages` and its helpers

Character-class predicates (`isupper`, `isdigit`, …) are modelled at ASCII,
which covers every input considered here and the standard behaviour of the
Python predicates on ASCII text.
-/

set_option maxRecDepth 10000
set_option maxHeartbeats 1000000

namespace CVH

/-! ### Python string primitives -/

/-- Whitespace as recognised by Python's `str.strip` / `\s` (ASCII range). -/
def isWS (c : Char) : Bool :=
  c == ' ' || c == '\t' || c == '\n' || c == '\r' || c == '\x0b' || c == '\x0c'

/-- Python `str.lstrip()`. -/
def lstripWS (l : List Char) : List Char := l.dropWhile isWS

/-- Python `str.rstrip()`. -/
def rstripWS (l : List Char) : List Char := (l.reverse.dropWhile isWS).reverse

/-- Python `str.strip()`. -/
def stripWS (l : List Char) : List Char := rstripWS (lstripWS l)

/-- Membership of a character in a character set. -/
def memC (cs : List Char) (c : Char) : Bool := cs.contains c

/-- Python `str.strip(chars)`, left side. -/
def stripSetL (cs : List Char) (l : List Char) : List Char := l.dropWhile (memC cs)

/-- Python `str.rstrip(chars)`. -/
def stripSetR (cs : List Char) (l : List Char) : List Char :=
  (l.reverse.dropWhile (memC cs)).reverse

/-- Python `str.strip(chars)`. -/
def stripSet (cs : List Char) (l : List Char) : List Char := stripSetR cs (stripSetL cs l)

/-- Python slice `l[a:b]` for non-negative indices (out-of-range clamps). -/
def pySlice (l : List Char) (a b : Nat) : List Char := (l.drop a).take (b - a)

/-- ASCII decimal digit (Python `str.isdigit` on ASCII). -/
def isDigitC (c : Char) : Bool := '0' ≤ c && c ≤ '9'

/-- ASCII uppercase letter (Python `str.isupper` on ASCII, per character). -/
def isUpperC (c : Char) : Bool := 'A' ≤ c && c ≤ 'Z'

/-- ASCII lowercase letter. -/
def isLowerC (c : Char) : Bool := 'a' ≤ c && c ≤ 'z'

/-- ASCII letter (Python `str.isalpha` on ASCII). -/
def isAlphaC (c : Char) : Bool := isUpperC c || isLowerC c

/-- Regex word character `\w` at ASCII: letter, digit or underscore. -/
def isWordC (c : Char) : Bool := isAlphaC c || isDigitC c || c == '_'

/-- ASCII lowercasing, for the `re.IGNORECASE` comparison. -/
def toLowerC (c : Char) : Char := if isUpperC c then Char.ofNat (c.toNat + 32) else c

/-- Python `str.islower()`: at least one cased character and no uppercase
character (ASCII model). -/
def pyIsLower (l : List Char) : Bool :=
  l.any (fun c => isLowerC c) && l.all (fun c => !isUpperC c)

/-! ### docx_highlight.py -/

/-- The `WD_COLOR_INDEX` values used by `risk_to_color`; they are the three
severity tiers exposed to the rendering layer (red = high, yellow = medium,
bright green = low). -/
inductive Color where
  | red
  | yellow
  | brightGreen
deriving DecidableEq, Repr

/-- `risk_to_color` from `app/utils/docx_highlight.py`:
`risk >= 70 → RED`, `risk >= 40 → YELLOW`, else `BRIGHT_GREEN`. -/
def riskToColor (risk : Int) : Color :=
  if 70 ≤ risk then .red else if 40 ≤ risk then .yellow else .brightGreen

/-- The clamp-and-filter comprehension in `split_paragraph_by_spans`:
`[(max(0, s), max(0, e)) for s, e in spans if e > s]`. -/
def clampSpans (spans : List (Int × Int)) : List (Nat × Nat) :=
  (spans.filter (fun p => p.1 < p.2)).map (fun p => ((max 0 p.1).toNat, (max 0 p.2).toNat))

/-- Stable insertion of a span into a list sorted by start. -/
def insertSpan (p : Nat × Nat) : List (Nat × Nat) → List (Nat × Nat)
  | [] => [p]
  | q :: t => if p.1 < q.1 then p :: q :: t else q :: insertSpan p t

/-- Python `sorted(spans, key=lambda x: x[0])`: a stable sort by span start
(insertion sort computes the same list as Python's stable sort). -/
def sortSpans (l : List (Nat × Nat)) : List (Nat × Nat) := l.foldr insertSpan []

/-- One iteration of the merge loop of `split_paragraph_by_spans`:
`if not merged or s > merged[-1][1]: merged.append([s, e])
 else: merged[-1][1] = max(merged[-1][1], e)`. -/
def mergeStep (merged : List (Nat × Nat)) (p : Nat × Nat) : List (Nat × Nat) :=
  match merged.getLast? with
  | none => [p]
  | some q => if q.2 < p.1 then merged ++ [p] else merged.dropLast ++ [(q.1, max q.2 p.2)]

/-- The merge loop of `split_paragraph_by_spans` over the sorted spans. -/
def mergeSpans (spans : List (Nat × Nat)) : List (Nat × Nat) := spans.foldl mergeStep []

/-- Recursive form of `mergeSpans`, used in proofs
(`mergeSpans_eq_mergeRec` below shows they agree). -/
def mergeRec : List (Nat × Nat) → List (Nat × Nat)
  | [] => []
  | [p] => [p]
  | p :: q :: t =>
    if p.2 < q.1 then p :: mergeRec (q :: t) else mergeRec ((p.1, max p.2 q.2) :: t)
termination_by l => l.length

/-- The rebuild loop of `split_paragraph_by_spans`: walk the merged spans left
to right, emitting an unhighlighted run for each gap and a highlighted run for
each span, then the unhighlighted tail. A run is `(text, none)` for plain and
`(text, some color)` for highlighted. -/
def renderRuns (text : List Char) (color : Color) : Nat → List (Nat × Nat) → List (List Char × Option Color)
  | cursor, [] => if cursor < text.length then [(pySlice text cursor text.length, none)] else []
  | cursor, (s, e) :: rest =>
    (if cursor < s then [(pySlice text cursor s, none)] else [])
      ++ (pySlice text s e, some color) :: renderRuns text color e rest

/-- `split_paragraph_by_spans` from `app/utils/docx_highlight.py`, as the list
of runs it leaves in the paragraph.  `if not text: return` leaves the (runless)
paragraph untouched. -/
def splitParagraphRuns (text : List Char) (spans : List (Int × Int)) (color : Color) :
    List (List Char × Option Color) :=
  if text = [] then [] else renderRuns text color 0 (mergeSpans (sortSpans (clampSpans spans)))

/-- Concatenation of the text of a list of runs, in order. -/
def runsConcat (runs : List (List Char × Option Color)) : List Char :=
  runs.foldr (fun r acc => r.1 ++ acc) []

/-! ### compliance_highlighter.py — the evidence loop of `_add_clause` -/

/-- A dynamically-typed Python value as it can appear in the evidence JSON. -/
inductive PyVal where
  | vint (n : Int)
  | vstr (s : List Char)
  | vnone
deriving DecidableEq, Repr

/-- Numeric value of an ASCII digit string. -/
def natOfDigits (ds : List Char) : Nat := ds.foldl (fun a c => a * 10 + (c.toNat - 48)) 0

/-- Python `int(str)`: optional surrounding whitespace, optional sign, digits;
anything else raises (modelled as `.error`). -/
def pyIntOfChars (s : List Char) : Except Unit Int :=
  match stripWS s with
  | '-' :: ds => if ds ≠ [] ∧ ds.all isDigitC then .ok (-(natOfDigits ds : Int)) else .error ()
  | '+' :: ds => if ds ≠ [] ∧ ds.all isDigitC then .ok ((natOfDigits ds : Int)) else .error ()
  | ds => if ds ≠ [] ∧ ds.all isDigitC then .ok ((natOfDigits ds : Int)) else .error ()

/-- Python `int(v)` on a dynamic value: ints pass through, numeric strings
parse, anything else (including `None`) raises. -/
def pyIntCast : PyVal → Except Unit Int
  | .vint n => .ok n
  | .vstr s => pyIntOfChars s
  | .vnone => .error ()

/-- The `span` sub-dictionary of an evidence claim; either key may be absent. -/
structure SpanDict where
  startv : Option PyVal
  endv : Option PyVal
deriving DecidableEq, Repr

/-- One untrusted evidence claim as consumed by `_add_clause`
(`ev.get("chunk_index", -1)`, `ev.get("span", {}).get("start", 0)`, …). -/
structure EvClaim where
  chunkIndex : Option PyVal
  span : Option SpanDict
deriving DecidableEq, Repr

/-- A rendered evidence paragraph: the authoritative chunk text and the runs
the highlighter leaves in it. -/
structure EvPara where
  text : List Char
  runs : List (List Char × Option Color)
deriving DecidableEq, Repr

/-- Clamp of a claimed offset in `_add_clause`: `max(0, min(v, len(text)))`. -/
def clampOff (len : Nat) (v : Int) : Int := max 0 (min v (len : Int))

/-- The highlight gate of `_add_clause`: clamp both offsets and highlight only
`if e > s` (after clamping); otherwise the claim yields no highlighted range. -/
def evHighlightRange (text : List Char) (s e : Int) : Option (Int × Int) :=
  let s2 := clampOff text.length s
  let e2 := clampOff text.length e
  if s2 < e2 then some (s2, e2) else none

/-- One evidence paragraph as `_add_clause` builds it:
`para = doc.add_paragraph(text)` followed by
`if e > s: split_paragraph_by_spans(para, [(s, e)], color)`. -/
def clausePara (color : Color) (text : List Char) (s e : Int) : EvPara :=
  match evHighlightRange text s e with
  | some (a, b) => ⟨text, splitParagraphRuns text [(a, b)] color⟩
  | none => ⟨text, if text = [] then [] else [(text, none)]⟩

/-- The `for ev in item.get("evidence", [])` loop of `_add_clause`.  A claim
whose `chunk_index` is missing or out of range is skipped (`continue`); a
non-numeric `chunk_index` or offset raises, aborting the whole batch
(modelled as `.error`). -/
def processEvidence (color : Color) (chunks : List (List Char)) : List EvClaim → Except Unit (List EvPara)
  | [] => .ok []
  | ev :: rest => do
    let idx ← pyIntCast ((ev.chunkIndex).getD (.vint (-1)))
    if idx < 0 ∨ (chunks.length : Int) ≤ idx then
      processEvidence color chunks rest
    else
      let text := chunks.getD idx.toNat []
      let sp := (ev.span).getD ⟨none, none⟩
      let s ← pyIntCast ((sp.startv).getD (.vint 0))
      let e ← pyIntCast ((sp.endv).getD (.vint 0))
      let out ← processEvidence color chunks rest
      .ok (clausePara color text s e :: out)

/-- `_add_clause`'s evidence rendering for one violation item: the highlight
colour is `risk_to_color(risk if violated else 0)`, computed once before the
evidence loop. -/
def addClause (risk : Int) (violated : Bool) (chunks : List (List Char)) (evs : List EvClaim) :
    Except Unit (List EvPara) :=
  processEvidence (riskToColor (if violated then risk else 0)) chunks evs

/-! ### chunk.py — the sentence chunker -/

/-- Lookbehind `(?<=[\.\?\!])` of the sentence-splitting regex: the head of the
reversed accumulator is the character immediately before the current one. -/
def sentPunct (acc : List Char) : Bool :=
  match acc.head? with
  | some c => c == '.' || c == '?' || c == '!'
  | none => false

/-- Single pass implementing `re.split(r'(?<=[\.\?\!])\s+', text)`:
`mode = true` while consuming the (maximal) whitespace run of a separator;
`acc` is the current sentence, reversed. -/
def sentGo : Bool → List Char → List Char → List (List Char)
  | _, acc, [] => [acc.reverse]
  | mode, acc, c :: cs =>
    if mode then
      if isWS c then sentGo true [] cs else sentGo false [c] cs
    else if isWS c && sentPunct acc then
      acc.reverse :: sentGo true [] cs
    else
      sentGo false (c :: acc) cs

/-- `re.split(r'(?<=[\.\?\!])\s+', l)`. -/
def sentSplit (l : List Char) : List (List Char) := sentGo false [] l

/-- The sentence-packing loop of `chunk_text`. -/
def chunkGo (M overlap : Nat) : List (List Char) → List Char → List (List Char) → List (List Char)
  | chunks, current, [] => if stripWS current ≠ [] then chunks ++ [stripWS current] else chunks
  | chunks, current, s :: ss =>
    if current.length + s.length < M then
      chunkGo M overlap chunks (current ++ (if current = [] then [] else [' ']) ++ s) ss
    else
      let chunks2 := if stripWS current ≠ [] then chunks ++ [stripWS current] else chunks
      let seed :=
        if overlap < current.length then
          (if overlap = 0 then current else current.drop (current.length - overlap))
        else current
      chunkGo M overlap chunks2 (seed ++ ' ' :: s) ss

/-- `chunk_text` from `app/services/chunk.py` (defaults `max_length=1200`,
`overlap=120`).  The `overlap = 0` special case mirrors Python's
`current_chunk[-0:] == current_chunk`. -/
def chunkText (text : List Char) (M overlap : Nat) : List (List Char) :=
  chunkGo M overlap [] [] (sentSplit (stripWS text))

/-- Maximum of a list of naturals. -/
def listMax (ns : List Nat) : Nat := ns.foldl max 0

/-- Length of the longest sentence the chunker's splitter produces. -/
def maxSentLen (text : List Char) : Nat :=
  listMax ((sentSplit (stripWS text)).map List.length)

/-! ### sectioner.py — helpers -/

/-- Index of the first occurrence of `pat` in the list, from offset `i`
(Python `str.find`). -/
def findSubIdxGo (pat : List Char) : List Char → Nat → Option Nat
  | [], i => if pat.isPrefixOf ([] : List Char) then some i else none
  | c :: t, i => if pat.isPrefixOf (c :: t) then some i else findSubIdxGo pat t (i + 1)

/-- Python `pat in l` for strings. -/
def containsSub (l pat : List Char) : Bool := (findSubIdxGo pat l 0).isSome

/-- Result of `RE_DEF_NUM.match`:
`^\s*(\d+\.\d+)\s*["']?([A-Za-z][^"'\n]+)["']?\s*` — `num` is group 1, `term`
group 2, and `rest` what follows `m.end()`. -/
structure DefNumMatch where
  num : List Char
  term : List Char
  rest : List Char
deriving DecidableEq, Repr

/-- Matcher for `RE_DEF_NUM` (the pattern is `^`-anchored, so `search` and
`finditer` can only ever match at position 0 of a line). -/
def reDefNumMatch (l : List Char) : Option DefNumMatch :=
  let r1 := l.dropWhile isWS
  let d1 := r1.takeWhile isDigitC
  let r2 := r1.dropWhile isDigitC
  if d1.isEmpty then none else
  match r2 with
  | '.' :: r3 =>
    let d2 := r3.takeWhile isDigitC
    let r4 := r3.dropWhile isDigitC
    if d2.isEmpty then none else
    let r5 := r4.dropWhile isWS
    let r6 := match r5 with
      | c :: t => if c == '"' || c == '\'' then t else r5
      | [] => r5
    match r6 with
    | c :: t =>
      if isAlphaC c then
        let body := t.takeWhile (fun x => !(x == '"' || x == '\'' || x == '\n'))
        if body.isEmpty then none else
        let r7 := t.dropWhile (fun x => !(x == '"' || x == '\'' || x == '\n'))
        let r8 := match r7 with
          | c2 :: t2 => if c2 == '"' || c2 == '\'' then t2 else r7
          | [] => r7
        some ⟨d1 ++ '.' :: d2, c :: body, r8.dropWhile isWS⟩
      else none
    | [] => none
  | _ => none

/-- Lookahead of `RE_DEF_SPLIT_INLINE`: `(\d+\.\d+)["'\s]` at this position. -/
def defSplitLookahead (t : List Char) : Bool :=
  let d1 := t.takeWhile isDigitC
  let r := t.dropWhile isDigitC
  if d1.isEmpty then false else
  match r with
  | '.' :: r2 =>
    let d2 := r2.takeWhile isDigitC
    let r3 := r2.dropWhile isDigitC
    if d2.isEmpty then false else
    match r3 with
    | c :: _ => c == '"' || c == '\'' || isWS c
    | [] => false
  | _ => false

/-- `RE_DEF_SPLIT_INLINE.search`: `\s(?=(\d+\.\d+)["'\s])` anywhere in the
line. -/
def reDefSplitInline : List Char → Bool
  | [] => false
  | c :: t => (isWS c && defSplitLookahead t) || reDefSplitInline t

/-- The punctuation set accepted by `is_all_caps`. -/
def allCapsPunct : List Char :=
  [' ', '-', '_', '/', '&', '(', ')', ',', '.', '\'', '’', '\'', '"', ':', ';', '.']

/-- `is_all_caps` from `section_text_with_pages`. -/
def isAllCaps (l : List Char) : Bool :=
  let s := stripWS l
  decide (3 ≤ s.length) && decide (s.length ≤ 160) &&
  s.all (fun c => isUpperC c || isDigitC c || memC allCapsPunct c) &&
  s.any (fun c => isAlphaC c)

/-- `\s+[A-Z]` at this position. -/
def spaceUpper (r : List Char) : Bool :=
  !(r.takeWhile isWS).isEmpty &&
  (match r.dropWhile isWS with | c :: _ => isUpperC c | [] => false)

/-- Tail `[.)]?\s+[A-Z]` of `RE_NUMERIC`. -/
def numFinish (r : List Char) : Bool :=
  spaceUpper r || (match r with | c :: t => (c == '.' || c == ')') && spaceUpper t | [] => false)

/-- Matchability of `(?:\.\d+)*[.)]?\s+[A-Z]` after the leading digits of
`RE_NUMERIC`, with full backtracking over the star (fuelled recursion; the
fuel is always sufficient since each iteration consumes characters). -/
def numTailGo : Nat → List Char → Bool
  | 0, _ => false
  | fuel + 1, r =>
    numFinish r ||
    (match r with
     | '.' :: t => !(t.takeWhile isDigitC).isEmpty && numTailGo fuel (t.dropWhile isDigitC)
     | _ => false)

/-- `RE_NUMERIC`: `^(?:\d+(?:\.\d+)*[.)]?)\s+[A-Z]`. -/
def reNumericMatch (l : List Char) : Bool :=
  !(l.takeWhile isDigitC).isEmpty && numTailGo (l.length + 1) (l.dropWhile isDigitC)

/-- Regex `\b` right after a word character: the next character must not be a
word character (or the string ends). -/
def wordBoundary : List Char → Bool
  | [] => true
  | c :: _ => !isWordC c

/-- Matchability of `(?:\.\d+)*\b` after the leading digits of `RE_SECTION`,
with full backtracking over the star. -/
def secTailGo : Nat → List Char → Bool
  | 0, _ => false
  | fuel + 1, r =>
    wordBoundary r ||
    (match r with
     | '.' :: t => !(t.takeWhile isDigitC).isEmpty && secTailGo fuel (t.dropWhile isDigitC)
     | _ => false)

/-- `RE_SECTION`: `^(?:Section|Article)\s+\d+(?:\.\d+)*\b`, case-insensitive. -/
def reSectionMatch (l : List Char) : Bool :=
  let ll := l.map toLowerC
  if ("section".toList).isPrefixOf ll || ("article".toList).isPrefixOf ll then
    let r := l.drop 7
    !(r.takeWhile isWS).isEmpty &&
    (let r2 := r.dropWhile isWS
     !(r2.takeWhile isDigitC).isEmpty && secTailGo (l.length + 1) (r2.dropWhile isDigitC))
  else false

/-- `RE_LETTERED`: `^[A-Z][.)]\s+[A-Z]`. -/
def reLetteredMatch : List Char → Bool
  | a :: b :: t => isUpperC a && (b == '.' || b == ')') && spaceUpper t
  | _ => false

/-- Parser for `^[A-Z][a-z]+(?:\s+[A-Z][a-z]+)*$`, counting the words; the
runs are forced (each character class is disjoint from its successor), so the
parse is deterministic. -/
def titleCaseGo : Nat → List Char → Option Nat
  | 0, _ => none
  | fuel + 1, l =>
    match l with
    | c :: t =>
      if isUpperC c then
        let lows := t.takeWhile isLowerC
        if lows.isEmpty then none else
        let r := t.dropWhile isLowerC
        if r.isEmpty then some 1
        else if (r.takeWhile isWS).isEmpty then none
        else match titleCaseGo fuel (r.dropWhile isWS) with
             | some k => some (k + 1)
             | none => none
      else none
    | [] => none

/-- `RE_TITLE_CASE`: `^[A-Z][a-z]+(?:\s+[A-Z][a-z]+){0,7}$` — at most 8
capitalized words covering the whole string. -/
def reTitleCaseMatch (l : List Char) : Bool :=
  match titleCaseGo (l.length + 1) l with
  | some k => decide (k ≤ 8)
  | none => false

/-- `line.strip().replace("—", "-")` as done by `looks_like_header`. -/
def emDashToHyphen (l : List Char) : List Char := l.map (fun c => if c == '—' then '-' else c)

/-- `looks_like_header` from `section_text_with_pages`. -/
def looksLikeHeader (line : List Char) : Bool :=
  let s := emDashToHyphen (stripWS line)
  (reDefNumMatch s).isSome ||
  reSectionMatch s || reNumericMatch s || reLetteredMatch s || reTitleCaseMatch s

/-- `buf.endswith((".", "!", "?", ":", ";"))`. -/
def endsTerminal (buf : List Char) : Bool :=
  match buf.getLast? with
  | some c => c == '.' || c == '!' || c == '?' || c == ':' || c == ';'
  | none => false

/-- `buf.endswith("-")`. -/
def endsHyphen (buf : List Char) : Bool :=
  match buf.getLast? with | some c => c == '-' | none => false

/-- The loop of `merge_soft_wraps`; `buf` is the accumulated paragraph. -/
def mswGo : List Char → List (List Char) → List (List Char)
  | buf, [] => if buf ≠ [] then [stripWS buf] else []
  | buf, ln0 :: rest =>
    let ln := rstripWS ln0
    if stripWS ln = [] then
      (if buf ≠ [] then [stripWS buf] else []) ++ ([] : List Char) :: mswGo [] rest
    else if buf ≠ [] then
      if endsHyphen buf && !ln.isEmpty && pyIsLower ln then
        mswGo (buf.dropLast ++ stripWS ln) rest
      else if !endsTerminal buf && !looksLikeHeader ln then
        mswGo (buf ++ ' ' :: stripWS ln) rest
      else
        stripWS buf :: mswGo (stripWS ln) rest
    else
      mswGo (stripWS ln) rest

/-- `merge_soft_wraps` from `section_text_with_pages`. -/
def mergeSoftWraps (lines : List (List Char)) : List (List Char) := mswGo [] lines

/-- The separator list of `first_sentence`, tried in this order. -/
def firstSentenceSeps : List (List Char) := [['.', ' '], ['!', ' '], ['?', ' '], ['\n'], ['\r']]

/-- The `for sep in ...: idx = s.find(sep); if idx != -1: s = s[:idx+1]; break`
loop of `first_sentence`. -/
def firstSentenceCut (s : List Char) : List Char :=
  match firstSentenceSeps.findSome? (fun sep => findSubIdxGo sep s 0) with
  | some idx => s.take (idx + 1)
  | none => s

/-- The loop of Python `str.split()` (split on whitespace runs, no empties);
`acc` is the current word, reversed. -/
def pySplitGo : List Char → List Char → List (List Char)
  | acc, [] => if acc = [] then [] else [acc.reverse]
  | acc, c :: t =>
    if isWS c then (if acc = [] then pySplitGo [] t else acc.reverse :: pySplitGo [] t)
    else pySplitGo (c :: acc) t

/-- Python `str.split()`. -/
def pySplit (l : List Char) : List (List Char) := pySplitGo [] l

/-- Python `sep.join(words)` for a single-character separator. -/
def joinSep (sep : Char) : List (List Char) → List Char
  | [] => []
  | [w] => w
  | w :: rest => w ++ sep :: joinSep sep rest

/-- Python `" ".join(words)`. -/
def joinWords (words : List (List Char)) : List Char := joinSep ' ' words

/-- The characters stripped by `first_sentence`'s `.rstrip(" ,;:.-")`. -/
def titleTruncChars : List Char := [' ', ',', ';', ':', '.', '-']

/-- `first_sentence` from `section_text_with_pages`. -/
def firstSentence (text : List Char) (limit : Nat) : List Char :=
  let s := firstSentenceCut (stripWS text)
  let s2 := joinWords (pySplit s)
  let s3 := if limit < s2.length then stripSetR titleTruncChars (s2.take limit) ++ ['…'] else s2
  if s3 = [] then "Untitled".toList else s3

/-- The loop of Python `str.splitlines()` (splitting on `\n`, `\r\n`, `\r`). -/
def pySplitlinesGo : List Char → List Char → List (List Char)
  | acc, [] => if acc = [] then [] else [acc.reverse]
  | acc, '\r' :: '\n' :: t => acc.reverse :: pySplitlinesGo [] t
  | acc, '\n' :: t => acc.reverse :: pySplitlinesGo [] t
  | acc, '\r' :: t => acc.reverse :: pySplitlinesGo [] t
  | acc, c :: t => pySplitlinesGo (c :: acc) t

/-- Python `str.splitlines()`. -/
def pySplitlines (l : List Char) : List (List Char) := pySplitlinesGo [] l

/-! ### sectioner.py — the section builder state machine -/

/-- One emitted section record. -/
structure Sec where
  title : List Char
  text : List Char
  page_start : Int
  page_end : Int
deriving DecidableEq, Repr

/-- The mutable accumulator of `section_text_with_pages`
(`sections`, `cur_title`, `cur_body`, `cur_min_page`, `cur_max_page`). -/
structure SectState where
  sections : List Sec
  curTitle : Option (List Char)
  curBody : List (List Char)
  curMin : Option Int
  curMax : Option Int
deriving DecidableEq, Repr

/-- Initial accumulator. -/
def initState : SectState := ⟨[], none, [], none, none⟩

/-- Python `x or d` on an optional integer: `None` and `0` are falsy. -/
def pyOrInt (o : Option Int) (d : Int) : Int :=
  match o with
  | none => d
  | some v => if v = 0 then d else v

/-- Python truthiness of `cur_title` (`None` and `""` are falsy). -/
def pyTruthyTitle : Option (List Char) → Bool
  | none => false
  | some t => !t.isEmpty

/-- The characters stripped from a definition term: `.strip(" .:;,-—")`. -/
def termStripChars : List Char := [' ', '.', ':', ';', ',', '-', '—']

/-- `cur_title or first_sentence(body_text, max_title_len)`: Python `or` falls
through to `first_sentence` when `cur_title` is `None` or empty. -/
def rawTitleOf (maxTitleLen : Nat) (o : Option (List Char)) (body : List Char) : List Char :=
  match o with
  | some t => if t ≠ [] then t else firstSentence body maxTitleLen
  | none => firstSentence body maxTitleLen

/-- `flush` from `section_text_with_pages`. -/
def flushState (maxTitleLen : Nat) (st : SectState) : SectState :=
  if st.curBody = [] ∧ pyTruthyTitle st.curTitle = false then st
  else
    let bodyText := stripWS (joinSep '\n' (mergeSoftWraps st.curBody))
    let title := stripWS (rawTitleOf maxTitleLen st.curTitle bodyText)
    let ps := pyOrInt st.curMin 1
    let pe := pyOrInt st.curMax ps
    { sections := st.sections ++ [⟨title, bodyText, ps, pe⟩],
      curTitle := none, curBody := [], curMin := none, curMax := none }

/-- `if cur_title is not None or cur_body: flush()`. -/
def maybeFlush (maxTitleLen : Nat) (st : SectState) : SectState :=
  if st.curTitle ≠ none ∨ st.curBody ≠ [] then flushState maxTitleLen st else st

/-- Title and remainder extracted from a definition-header match:
`title = f"{num} {term}"` with the term stripped, `rest = ...lstrip()`. -/
def defHeaderOf (m : DefNumMatch) : List Char × List Char :=
  (m.num ++ ' ' :: stripSet termStripChars (stripWS m.term), lstripWS m.rest)

/-- Processing of a recognised definition header: flush if open, set the new
title, and push the remainder (if non-empty) as the first body line.  Note: it
does not touch `cur_min_page`/`cur_max_page` (the source does not either). -/
def applyDefHeader (maxTitleLen : Nat) (st : SectState) (m : DefNumMatch) : SectState :=
  let st2 := maybeFlush maxTitleLen st
  let h := defHeaderOf m
  { st2 with
    curTitle := some h.1,
    curBody := if h.2 ≠ [] then st2.curBody ++ [h.2] else st2.curBody }

/-- One iteration of the `for seg in parts` loop of the inline-split branch. -/
def segStep (maxTitleLen : Nat) (st : SectState) (seg : List Char) : SectState :=
  match reDefNumMatch seg with
  | some m => applyDefHeader maxTitleLen st m
  | none => { st with curBody := st.curBody ++ [seg] }

/-- The `parts` computation of the inline-split branch.  `RE_DEF_NUM` is
`^`-anchored and `re.MULTILINE` is not set, so `finditer` yields at most one
match, at position 0; hence `idxs` is `[0]` whenever the branch is reached and
the "split" always returns the whole (stripped) line as a single segment. -/
def defInlineSegments (ln : List Char) : List (List Char) :=
  let idxs0 : List Nat := match reDefNumMatch ln with | some _ => [0] | none => []
  let idxs1 :=
    match idxs0 with
    | [] => idxs0
    | i :: _ => if i ≠ 0 then 0 :: idxs0 else idxs0
  let idxs := idxs1 ++ [ln.length]
  (idxs.zip idxs.tail).foldr
    (fun ab acc =>
      let seg := stripWS (pySlice ln ab.1 ab.2)
      if seg ≠ [] then seg :: acc else acc) []

/-- The lookahead of the header branch: the stripped text of the next
non-blank line, or `[]` when none exists. -/
def lookaheadLine : List (Int × List Char) → List Char
  | [] => []
  | p :: t => if stripWS p.2 ≠ [] then stripWS p.2 else lookaheadLine t

/-- `pno if cur_min_page is None else min(cur_min_page, pno)`. -/
def pageMinUpd (o : Option Int) (pno : Int) : Int :=
  match o with
  | none => pno
  | some a => min a pno

/-- `pno if cur_max_page is None else max(cur_max_page, pno)`. -/
def pageMaxUpd (o : Option Int) (pno : Int) : Int :=
  match o with
  | none => pno
  | some b => max b pno

/-- Membership in the `PREAMBLE` set. -/
def inPreamble (s : List Char) : Bool :=
  s == "WHEREAS".toList || s == "NOW, THEREFORE".toList

/-- One iteration of the main `while i < len(lines_with_pages)` loop of
`section_text_with_pages`, given the remaining lines for the lookahead. -/
def stepLine (maxTitleLen : Nat) (st : SectState) (pno : Int) (ln : List Char)
    (rest : List (Int × List Char)) : SectState :=
  let lnStripped := stripWS ln
  if (reDefNumMatch ln).isSome ∧ (containsSub ln [' ', '1', '.'] ∨ reDefSplitInline ln) then
    (defInlineSegments ln).foldl (segStep maxTitleLen) st
  else
    match reDefNumMatch ln with
    | some m => applyDefHeader maxTitleLen st m
    | none =>
      let nextLine := lookaheadLine rest
      let isNextHeader := nextLine ≠ [] ∧ (isAllCaps nextLine ∨ looksLikeHeader nextLine)
      if lnStripped ≠ [] ∧
         (isAllCaps lnStripped ∨ looksLikeHeader lnStripped ∨ inPreamble lnStripped) ∧
         (lnStripped.length ≤ 160 ∨ ¬isNextHeader) then
        let st2 := maybeFlush maxTitleLen st
        { st2 with
          curTitle := some (joinWords (pySplit lnStripped)),
          curMin := some (pageMinUpd st2.curMin pno),
          curMax := some (pageMaxUpd st2.curMax pno) }
      else
        { st with
          curBody := st.curBody ++ [ln],
          curMin := some (pageMinUpd st.curMin pno),
          curMax := some (pageMaxUpd st.curMax pno) }

/-- The main loop over all `(page_no, line)` pairs. -/
def sectLoop (maxTitleLen : Nat) : SectState → List (Int × List Char) → SectState
  | st, [] => st
  | st, p :: rest => sectLoop maxTitleLen (stepLine maxTitleLen st p.1 p.2 rest) rest

/-- Flattening of `paged_text` into `lines_with_pages`. -/
def pageFlatten (paged : List (Int × List Char)) : List (Int × List Char) :=
  paged.flatMap (fun p => (pySplitlines p.2).map (fun l => (p.1, l)))

/-- `section_text_with_pages` from `app/services/sectioner.py`. -/
def sectionTextWithPages (paged : List (Int × List Char)) (maxTitleLen : Nat) : List Sec :=
  let lines := pageFlatten paged
  let final := flushState maxTitleLen (sectLoop maxTitleLen initState lines)
  final.sections.filter (fun s => s.title ≠ [] ∨ s.text ≠ [])

/-- Total number of pages of the input: with 1-based, monotonically
non-decreasing page numbers this is the greatest page number occurring. -/
def totalPages (paged : List (Int × List Char)) : Int :=
  paged.foldl (fun a p => max a p.1) 0

/-- The extractor precondition that page numbers are monotonically
non-decreasing along the input. -/
def nonDecPages : List (Int × List Char) → Prop
  | [] => True
  | [_] => True
  | a :: b :: t => a.1 ≤ b.1 ∧ nonDecPages (b :: t)

/-! ### Predicates used by the correctness proofs -/

/-- Invariant on the open section's page range: both bounds are absent, or
both are present with `1 ≤ min ≤ max ≤ T`. -/
def pageOKInv (T : Int) : Option Int → Option Int → Prop
  | none, none => True
  | some a, some b => 1 ≤ a ∧ a ≤ b ∧ b ≤ T
  | _, _ => False

/-- Invariant on the open section's title: when set, it contains at least one
non-whitespace character (so its final `.strip()` is non-empty). -/
def titleInv (o : Option (List Char)) : Prop :=
  ∀ t, o = some t → ∃ c ∈ t, isWS c = false

/-- The emitted-section property of claim C4. -/
def goodSec (T : Int) (s : Sec) : Prop :=
  s.title ≠ [] ∧ 1 ≤ s.page_start ∧ s.page_start ≤ s.page_end ∧ s.page_end ≤ T

/-- The loop invariant of the section builder. -/
def sectInv (T : Int) (st : SectState) : Prop :=
  (∀ s ∈ st.sections, goodSec T s) ∧ pageOKInv T st.curMin st.curMax ∧ titleInv st.curTitle

/-- Adjacent span starts are non-decreasing (what Python's stable sort by
start guarantees). -/
def startsOrdered : List (Nat × Nat) → Prop
  | [] => True
  | [_] => True
  | p :: q :: t => p.1 ≤ q.1 ∧ startsOrdered (q :: t)

/-- Well-formedness of a merged span list relative to a cursor: each span
starts at or after the cursor, has `start ≤ end`, and the next spans chain
from its end. -/
def chainOK : Nat → List (Nat × Nat) → Prop
  | _, [] => True
  | c, p :: rest => c ≤ p.1 ∧ p.1 ≤ p.2 ∧ chainOK p.2 rest

/-! ### Concrete inputs used by the concrete theorems below -/

/-- The example chunk text of the evidence scenario in the specification. -/
def exampleChunkText : List Char :=
  "The Term shall be 5 years unless terminated earlier for cause.".toList

/-- The three-line Section Builder example input. -/
def c3Input : List Char :=
  "SECTION 1. DEFINITIONS\n1.1 \"Agreement\" means this document.\n1.2 \"Party\" means either signatory.".toList

/-- A line with two OCR-glued numbered definitions. -/
def gluedDefsLine : List Char := "1.1 \"Agreement\" means X. 1.2 \"Party\" means Y.".toList

/-- Two definition-header lines that sit on page 2 of the input. -/
def page2Defs : List Char :=
  "1.1 \"Agreement\" means this document.\n1.2 \"Party\" means either signatory.".toList

/-- A chunker input whose sentences are all short. -/
def c8CexText : List Char := "aaaa. bbbbbb.".toList

/-- The chunk set of the evidence-batch examples. -/
def c9Chunk : List Char := "abc".toList

/-- An evidence claim with a valid chunk index but a non-numeric `start`. -/
def c9BadClaim : EvClaim := ⟨some (.vint 0), some ⟨some (.vstr "x".toList), some (.vint 2)⟩⟩

/-- A fully well-formed evidence claim. -/
def c9GoodClaim : EvClaim := ⟨some (.vint 0), some ⟨some (.vint 0), some (.vint 2)⟩⟩

end CVH

namespace CVH

/-! ## Theorems -/

/-! ### Shared helper lemmas -/

/-- Reduction of an `Except` bind on a success value. -/
theorem ebind_ok {α β : Type} (a : α) (f : α → Except Unit β) :
    (Except.ok a >>= f) = f a := rfl

/-- Reduction of an `Except` bind on an error value. -/
theorem ebind_err {α β : Type} (u : Unit) (f : α → Except Unit β) :
    ((Except.error u : Except Unit α) >>= f) = Except.error u := rfl

/-- The Python merge loop (`mergeSpans`, a fold with last-element mutation)
computes the same list as the recursive merge `mergeRec`. -/
theorem foldl_mergeStep_concat :
    ∀ (xs : List (Nat × Nat)) (front : List (Nat × Nat)) (q : Nat × Nat),
      List.foldl mergeStep (front ++ [q]) xs = front ++ mergeRec (q :: xs) := by
  intro xs
  induction xs with
  | nil =>
    intro front q
    simp [mergeRec]
  | cons p xs ih =>
    intro front q
    rw [List.foldl_cons]
    have hstep : mergeStep (front ++ [q]) p =
        if q.2 < p.1 then (front ++ [q]) ++ [p] else front ++ [(q.1, max q.2 p.2)] := by
      simp only [mergeStep, List.getLast?_concat, List.dropLast_concat]
    by_cases h : q.2 < p.1
    · rw [hstep, if_pos h, ih, List.append_assoc]
      have hmr : mergeRec (q :: p :: xs) = q :: mergeRec (p :: xs) := by
        simp only [mergeRec]
        rw [if_pos h]
      rw [hmr]
      rfl
    · rw [hstep, if_neg h, ih]
      have hmr : mergeRec (q :: p :: xs) = mergeRec ((q.1, max q.2 p.2) :: xs) := by
        simp only [mergeRec]
        rw [if_neg h]
      rw [hmr]

theorem mergeSpans_eq_mergeRec (l : List (Nat × Nat)) : mergeSpans l = mergeRec l := by
  cases l with
  | nil =>
    simp only [mergeRec]
    rfl
  | cons p xs =>
    unfold mergeSpans
    rw [List.foldl_cons]
    have h0 : mergeStep [] p = [p] := rfl
    rw [h0]
    have h := foldl_mergeStep_concat xs [] p
    simpa using h

theorem insertSpan_mem (p q : Nat × Nat) :
    ∀ l, q ∈ insertSpan p l ↔ q = p ∨ q ∈ l := by
  intro l
  induction l with
  | nil => simp [insertSpan]
  | cons r t ih =>
    unfold insertSpan
    split
    · simp
      try tauto
    · simp [ih]
      try tauto

theorem sortSpans_mem (q : Nat × Nat) : ∀ l, q ∈ sortSpans l ↔ q ∈ l := by
  intro l
  induction l with
  | nil => simp [sortSpans]
  | cons r t ih =>
    unfold sortSpans at ih ⊢
    rw [List.foldr_cons, insertSpan_mem, ih]
    exact (List.mem_cons).symm

theorem insertSpan_sorted (p : Nat × Nat) :
    ∀ l, startsOrdered l → startsOrdered (insertSpan p l) := by
  intro l
  induction l with
  | nil => intro _; simp [insertSpan, startsOrdered]
  | cons q t ih =>
    intro h
    unfold insertSpan
    split
    · rename_i hpq
      exact ⟨Nat.le_of_lt hpq, h⟩
    · rename_i hpq
      push_neg at hpq
      cases t with
      | nil => exact ⟨hpq, trivial⟩
      | cons r t2 =>
        have hqr : q.1 ≤ r.1 := h.1
        have hrt : startsOrdered (r :: t2) := h.2
        have hins := ih hrt
        unfold insertSpan at hins ⊢
        split
        · rename_i hpr
          exact ⟨hpq, Nat.le_of_lt hpr, hrt⟩
        · rename_i hpr
          rw [if_neg hpr] at hins
          exact ⟨hqr, hins⟩

theorem sortSpans_sorted : ∀ l, startsOrdered (sortSpans l) := by
  intro l
  induction l with
  | nil => trivial
  | cons p t ih =>
    unfold sortSpans
    rw [List.foldr_cons]
    exact insertSpan_sorted p _ ih

theorem clampSpans_wf (spans : List (Int × Int)) :
    ∀ p ∈ clampSpans spans, p.1 ≤ p.2 := by
  intro p hp
  unfold clampSpans at hp
  rw [List.mem_map] at hp
  obtain ⟨a, ha, rfl⟩ := hp
  rw [List.mem_filter] at ha
  have h2 := ha.2
  simp only [decide_eq_true_eq] at h2
  simp only
  omega

theorem mergeRec_chain :
    ∀ (xs : List (Nat × Nat)) (q : Nat × Nat) (c : Nat),
      c ≤ q.1 → q.1 ≤ q.2 → (∀ r ∈ xs, r.1 ≤ r.2) → startsOrdered (q :: xs) →
      chainOK c (mergeRec (q :: xs)) := by
  intro xs
  induction xs with
  | nil =>
    intro q c hc hq _ _
    simp only [mergeRec]
    exact ⟨hc, hq, trivial⟩
  | cons p xs ih =>
    intro q c hc hq hmem hord
    simp only [mergeRec]
    split
    · rename_i h
      refine ⟨hc, hq, ?_⟩
      exact ih p q.2 (Nat.le_of_lt h) (hmem p (List.mem_cons_self p xs))
        (fun r hr => hmem r (List.mem_cons_of_mem p hr)) hord.2
    · rename_i h
      push_neg at h
      apply ih (q.1, max q.2 p.2) c hc
      · simp only
        exact Nat.le_trans hq (Nat.le_max_left _ _)
      · intro r hr
        exact hmem r (List.mem_cons_of_mem p hr)
      · cases xs with
        | nil => trivial
        | cons r t =>
          exact ⟨Nat.le_trans hord.1 hord.2.1, hord.2.2⟩

theorem pySlice_drop (text : List Char) (a b : Nat) (hab : a ≤ b) :
    pySlice text a b ++ text.drop b = text.drop a := by
  unfold pySlice
  have hd : text.drop b = (text.drop a).drop (b - a) := by
    rw [List.drop_drop]
    congr 1
    omega
  rw [hd]
  exact List.take_append_drop (b - a) (text.drop a)

theorem renderRuns_concat (text : List Char) (color : Color) :
    ∀ (spans : List (Nat × Nat)) (c : Nat),
      chainOK c spans →
      runsConcat (renderRuns text color c spans) = text.drop c := by
  intro spans
  induction spans with
  | nil =>
    intro c _
    unfold renderRuns
    by_cases h : c < text.length
    · rw [if_pos h]
      have h1 : runsConcat [(pySlice text c text.length, none)] = pySlice text c text.length := by
        unfold runsConcat
        simp
      rw [h1]
      have h2 := pySlice_drop text c text.length (Nat.le_of_lt h)
      rw [List.drop_length] at h2
      simpa using h2
    · rw [if_neg h]
      have hdrop : text.drop c = [] := List.drop_eq_nil_of_le (by omega)
      rw [hdrop]
      rfl
  | cons p rest ih =>
    intro c hchain
    obtain ⟨s, e⟩ := p
    obtain ⟨hcs, hse, hchain2⟩ := hchain
    have hrec := ih e hchain2
    unfold renderRuns
    have hconcat : ∀ (a b : List (List Char × Option Color)),
        runsConcat (a ++ b) = runsConcat a ++ runsConcat b := by
      intro a b
      unfold runsConcat
      induction a with
      | nil => simp
      | cons x xs iha => simp only [List.cons_append, List.foldr_cons, iha, List.append_assoc]
    rw [hconcat]
    have hcons : runsConcat ((pySlice text s e, some color) :: renderRuns text color e rest) =
        pySlice text s e ++ runsConcat (renderRuns text color e rest) := rfl
    rw [hcons, hrec]
    rw [← List.append_assoc, List.append_assoc]
    rw [pySlice_drop text s e hse]
    by_cases h : c < s
    · rw [if_pos h]
      have hplain : runsConcat [(pySlice text c s, none)] = pySlice text c s := by
        unfold runsConcat
        simp
      rw [hplain]
      exact pySlice_drop text c s (Nat.le_of_lt h)
    · rw [if_neg h]
      have hceq : c = s := by omega
      rw [hceq]
      have hempty : runsConcat ([] : List (List Char × Option Color)) = [] := rfl
      rw [hempty]
      simp

/-- Every highlighted run emitted by the rebuild loop carries the colour that
was passed in. -/
theorem renderRuns_colors (text : List Char) (color : Color) :
    ∀ spans cursor, ∀ r ∈ renderRuns text color cursor spans, ∀ c, r.2 = some c → c = color := by
  intro spans
  induction spans with
  | nil =>
    intro cursor r hr c hc
    simp only [renderRuns] at hr
    split at hr
    · simp at hr
      rw [hr] at hc
      simp at hc
    · simp at hr
  | cons p rest ih =>
    intro cursor r hr c hc
    obtain ⟨s, e⟩ := p
    simp only [renderRuns] at hr
    rw [List.mem_append] at hr
    rcases hr with hr | hr
    · split at hr
      · simp at hr
        rw [hr] at hc
        simp at hc
      · simp at hr
    · rcases List.mem_cons.mp hr with hr | hr
      · rw [hr] at hc
        simp at hc
        exact hc.symm
      · exact ih e r hr c hc

/-- Every highlighted run of `split_paragraph_by_spans` carries the colour
that was passed in. -/
theorem splitParagraphRuns_colors (text : List Char) (spans : List (Int × Int)) (color : Color) :
    ∀ r ∈ splitParagraphRuns text spans color, ∀ c, r.2 = some c → c = color := by
  intro r hr c hc
  unfold splitParagraphRuns at hr
  split at hr
  · simp at hr
  · exact renderRuns_colors text color _ 0 r hr c hc

/-- Every highlighted run of an evidence paragraph carries the colour that was
passed in. -/
theorem clausePara_colors (color : Color) (text : List Char) (s e : Int) :
    ∀ r ∈ (clausePara color text s e).runs, ∀ c, r.2 = some c → c = color := by
  intro r hr c hc
  unfold clausePara at hr
  cases h : evHighlightRange text s e with
  | some ab =>
    rw [h] at hr
    obtain ⟨a, b⟩ := ab
    simp only at hr
    exact splitParagraphRuns_colors text [(a, b)] color r hr c hc
  | none =>
    rw [h] at hr
    simp only at hr
    split at hr
    · simp at hr
    · simp at hr
      rw [hr] at hc
      simp at hc

/-- Every highlighted run produced by the evidence loop carries the colour the
loop was given. -/
theorem processEvidence_colors (color : Color) (chunks : List (List Char)) :
    ∀ evs out, processEvidence color chunks evs = .ok out →
      ∀ p ∈ out, ∀ r ∈ p.runs, ∀ c, r.2 = some c → c = color := by
  intro evs
  induction evs with
  | nil =>
    intro out hout p hp
    simp only [processEvidence] at hout
    cases hout
    simp at hp
  | cons ev rest ih =>
    intro out hout p hp r hr c hc
    simp only [processEvidence] at hout
    cases hidx : pyIntCast ((ev.chunkIndex).getD (.vint (-1))) with
    | error u =>
      rw [hidx, ebind_err] at hout
      cases hout
    | ok idx =>
      rw [hidx, ebind_ok] at hout
      split at hout
      · exact ih out hout p hp r hr c hc
      · cases hs : pyIntCast (((ev.span).getD ⟨none, none⟩).startv.getD (.vint 0)) with
        | error u =>
          rw [hs, ebind_err] at hout
          cases hout
        | ok sv =>
          rw [hs, ebind_ok] at hout
          cases he : pyIntCast (((ev.span).getD ⟨none, none⟩).endv.getD (.vint 0)) with
          | error u =>
            rw [he, ebind_err] at hout
            cases hout
          | ok evv =>
            rw [he, ebind_ok] at hout
            cases hrec : processEvidence color chunks rest with
            | error u =>
              rw [hrec, ebind_err] at hout
              cases hout
            | ok out2 =>
              rw [hrec, ebind_ok] at hout
              cases hout
              rcases List.mem_cons.mp hp with hp | hp
              · rw [hp] at hr
                exact clausePara_colors color _ sv evv r hr c hc
              · exact ih out2 hrec p hp r hr c hc

/-- C3: on the input "SECTION 1. DEFINITIONS" / `1.1 "Agreement" means this
document.` / `1.2 "Party" means either signatory.`, all on page 1, the Section
Builder emits exactly three Sections, in order: (`SECTION 1. DEFINITIONS`,
empty body, pages 1–1), (`1.1 Agreement`, body `means this document.`, pages
1–1), (`1.2 Party`, body `means either signatory.`, pages 1–1). -/
theorem c3_section_builder_example :
    sectionTextWithPages [(1, c3Input)] 160 =
      [⟨"SECTION 1. DEFINITIONS".toList, [], 1, 1⟩,
       ⟨"1.1 Agreement".toList, "means this document.".toList, 1, 1⟩,
       ⟨"1.2 Party".toList, "means either signatory.".toList, 1, 1⟩] := by
  decide

/-- C5 (code bug): the definition pattern occurs twice in `gluedDefsLine`
(at offset 0 and at offset 25), and `RE_DEF_SPLIT_INLINE` fires, yet the
inline splitter returns the whole line as a single segment — because
`RE_DEF_NUM` is `^`-anchored, `finditer` can only match at position 0, so the
split indices are always `[0, len]`.  The pipeline therefore emits a single
`1.1 Agreement` section whose body still contains the glued `1.2 "Party"`
definition instead of two sections. -/
theorem c5_inline_splitter_never_splits :
    (reDefNumMatch gluedDefsLine).isSome = true ∧
    (reDefNumMatch (gluedDefsLine.drop 25)).isSome = true ∧
    reDefSplitInline gluedDefsLine = true ∧
    defInlineSegments gluedDefsLine = [gluedDefsLine] ∧
    (sectionTextWithPages [(1, gluedDefsLine)] 160).map Sec.title = ["1.1 Agreement".toList] := by
  decide

/-- C7 (code bug): the definition-header branch never touches
`cur_min_page`/`cur_max_page`, so two definition sections whose header and
body all sit on page 2 are emitted with `page_start = page_end = 1` (the
`cur_min_page or 1` default), not with the seeded range `[2, 2]` the
specification describes. -/
theorem c7_def_header_pages_not_seeded :
    (sectionTextWithPages [(2, page2Defs)] 160).map (fun s => (s.title, s.page_start, s.page_end)) =
      [("1.1 Agreement".toList, 1, 1), ("1.2 Party".toList, 1, 1)] := by
  decide

/-- C2 counterexample: the example chunk text has 62 characters, not 63; the
claim `{start: 100, end: 200}` clamps to `(62, 62)` (not `(63, 63)`) and is
dropped by the highlight gate. -/
theorem c2_example_length_counterexample :
    exampleChunkText.length = 62 ∧ exampleChunkText.length ≠ 63 ∧
    clampOff exampleChunkText.length 100 = 62 ∧
    clampOff exampleChunkText.length 200 = 62 ∧
    evHighlightRange exampleChunkText 100 200 = none := by
  decide

/-- C6 counterexample: the next line `ment to the Plan` begins with a
lowercase letter, yet `merge_soft_wraps` keeps the hyphen and joins with a
space — the code tests `ln.islower()` on the whole line, which is false here
because of the uppercase `P`. -/
theorem c6_islower_counterexample :
    mergeSoftWraps ["agree-".toList, "ment to the Plan".toList] =
      ["agree- ment to the Plan".toList] ∧
    ¬ mergeSoftWraps ["agree-".toList, "ment to the Plan".toList] =
      ["agreement to the Plan".toList] := by
  decide

theorem foldl_max_init : ∀ (ns : List Nat) (a : Nat), a ≤ ns.foldl max a := by
  intro ns
  induction ns with
  | nil => intro a; simp
  | cons m t ih =>
    intro a
    rw [List.foldl_cons]
    exact Nat.le_trans (Nat.le_max_left a m) (ih (max a m))

theorem foldl_max_mem : ∀ (ns : List Nat) (a n : Nat), n ∈ ns → n ≤ ns.foldl max a := by
  intro ns
  induction ns with
  | nil => intro a n h; simp at h
  | cons m t ih =>
    intro a n h
    rw [List.foldl_cons]
    rcases List.mem_cons.mp h with h | h
    · rw [h]
      exact Nat.le_trans (Nat.le_max_right a m) (foldl_max_init t (max a m))
    · exact ih (max a m) n h

theorem listMax_mem (ns : List Nat) (n : Nat) (h : n ∈ ns) : n ≤ listMax ns :=
  foldl_max_mem ns 0 n h

theorem stripWS_length_le (l : List Char) : (stripWS l).length ≤ l.length := by
  unfold stripWS rstripWS lstripWS
  have h1 : ((l.dropWhile isWS).reverse.dropWhile isWS).length ≤ (l.dropWhile isWS).reverse.length :=
    (List.dropWhile_sublist isWS).length_le
  have h2 : (l.dropWhile isWS).length ≤ l.length := (List.dropWhile_sublist isWS).length_le
  simp only [List.length_reverse] at h1 ⊢
  omega

theorem chunkGo_bound (M overlap B L : Nat) (hM : M ≤ B) (hovB : overlap + 1 + L ≤ B)
    (hov1 : 1 ≤ overlap) :
    ∀ (ss : List (List Char)) (chunks : List (List Char)) (current : List Char),
      (∀ c ∈ chunks, c.length ≤ B) → current.length ≤ B → (∀ s ∈ ss, s.length ≤ L) →
      ∀ c ∈ chunkGo M overlap chunks current ss, c.length ≤ B := by
  intro ss
  induction ss with
  | nil =>
    intro chunks current hch hcur _ c hc
    unfold chunkGo at hc
    split at hc
    · rcases List.mem_append.mp hc with h | h
      · exact hch c h
      · rw [List.mem_singleton.mp h]
        exact Nat.le_trans (stripWS_length_le current) hcur
    · exact hch c hc
  | cons s2 ss ih =>
    intro chunks current hch hcur hss c hc
    unfold chunkGo at hc
    split at hc
    · rename_i h
      refine ih chunks _ hch ?_ (fun r hr => hss r (List.mem_cons_of_mem _ hr)) c hc
      simp only [List.length_append]
      split <;> simp <;> omega
    · rename_i h
      refine ih _ _ ?_ ?_ (fun r hr => hss r (List.mem_cons_of_mem _ hr)) c hc
      · intro r hr
        split at hr
        · rcases List.mem_append.mp hr with h2 | h2
          · exact hch r h2
          · rw [List.mem_singleton.mp h2]
            exact Nat.le_trans (stripWS_length_le current) hcur
        · exact hch r hr
      · have hs2 : s2.length ≤ L := hss s2 (List.mem_cons_self _ _)
        have hseed : (if overlap < current.length then
            (if overlap = 0 then current else current.drop (current.length - overlap))
          else current).length ≤ overlap := by
          split
          · rename_i hlt
            rw [if_neg (by omega)]
            simp only [List.length_drop]
            omega
          · rename_i hlt
            omega
        simp only [List.length_append, List.length_cons]
        omega

theorem infix_dropWhile_of_head (p : Char → Bool) (s : List Char) (c0 : Char)
    (hh : s.head? = some c0) (hc : p c0 = false) :
    ∀ l, s <:+: l → s <:+: l.dropWhile p := by
  intro l
  induction l with
  | nil =>
    intro h
    simp at h
    rw [h] at hh
    cases hh
  | cons x t ih =>
    intro h
    rw [List.dropWhile_cons]
    split
    · rename_i hpx
      rcases List.infix_cons_iff.mp h with hpre | hinf
      · cases s with
        | nil => cases hh
        | cons a s2 =>
          have ha : a = c0 := by
            simp only [List.head?_cons] at hh
            exact Option.some.inj hh
          have hax : a = x := (List.cons_prefix_cons.mp hpre).1
          rw [← hax, ha, hc] at hpx
          cases hpx
      · exact ih hinf
    · exact h

theorem infix_rstripWS_of_last (s : List Char) (c1 : Char)
    (hl : s.getLast? = some c1) (hc : isWS c1 = false) :
    ∀ l, s <:+: l → s <:+: rstripWS l := by
  intro l h
  unfold rstripWS
  have hs : s = s.reverse.reverse := (List.reverse_reverse s).symm
  rw [hs, List.reverse_infix]
  apply infix_dropWhile_of_head isWS s.reverse c1
  · rw [List.head?_reverse]
    exact hl
  · exact hc
  · rw [← List.reverse_infix] at h
    exact h

theorem infix_stripWS (s : List Char) (c0 c1 : Char)
    (hh : s.head? = some c0) (hc0 : isWS c0 = false)
    (hl : s.getLast? = some c1) (hc1 : isWS c1 = false) :
    ∀ l, s <:+: l → s <:+: stripWS l := by
  intro l h
  unfold stripWS
  apply infix_rstripWS_of_last s c1 hl hc1
  exact infix_dropWhile_of_head isWS s c0 hh hc0 l h

theorem chunkGo_chunks_mono (M overlap : Nat) :
    ∀ (ss chunks : List (List Char)) (current : List Char) (c : List Char),
      c ∈ chunks → c ∈ chunkGo M overlap chunks current ss := by
  intro ss
  induction ss with
  | nil =>
    intro chunks current c hc
    unfold chunkGo
    split
    · exact List.mem_append_left _ hc
    · exact hc
  | cons s2 ss ih =>
    intro chunks current c hc
    unfold chunkGo
    split
    · exact ih chunks _ c hc
    · apply ih _ _ c
      split
      · exact List.mem_append_left _ hc
      · exact hc

theorem chunkGo_keeps_sub (M overlap : Nat) (s : List Char) (c0 c1 : Char)
    (hh : s.head? = some c0) (hc0 : isWS c0 = false)
    (hl : s.getLast? = some c1) (hc1 : isWS c1 = false) :
    ∀ (ss chunks : List (List Char)) (current : List Char),
      s <:+: current →
      ∃ c ∈ chunkGo M overlap chunks current ss, s <:+: c := by
  intro ss
  induction ss with
  | nil =>
    intro chunks current hcur
    have hstrip : s <:+: stripWS current := infix_stripWS s c0 c1 hh hc0 hl hc1 current hcur
    have hne : stripWS current ≠ [] := by
      intro h
      rw [h] at hstrip
      simp at hstrip
      rw [hstrip] at hh
      cases hh
    unfold chunkGo
    rw [if_pos hne]
    exact ⟨stripWS current, List.mem_append_right _ (List.mem_singleton_self _), hstrip⟩
  | cons s2 ss ih =>
    intro chunks current hcur
    unfold chunkGo
    split
    · apply ih
      obtain ⟨u, v, huv⟩ := hcur
      exact ⟨u, v ++ ((if current = [] then [] else [' ']) ++ s2), by rw [← huv]; simp⟩
    · have hstrip : s <:+: stripWS current := infix_stripWS s c0 c1 hh hc0 hl hc1 current hcur
      have hne : stripWS current ≠ [] := by
        intro h
        rw [h] at hstrip
        simp at hstrip
        rw [hstrip] at hh
        cases hh
      rw [if_pos hne]
      refine ⟨stripWS current, ?_, hstrip⟩
      exact chunkGo_chunks_mono M overlap ss _ _ _ (List.mem_append_right _ (List.mem_singleton_self _))

theorem chunkGo_sentence_sub (M overlap : Nat) (s : List Char) (c0 c1 : Char)
    (hh : s.head? = some c0) (hc0 : isWS c0 = false)
    (hl : s.getLast? = some c1) (hc1 : isWS c1 = false) :
    ∀ (ss chunks : List (List Char)) (current : List Char),
      s ∈ ss →
      ∃ c ∈ chunkGo M overlap chunks current ss, s <:+: c := by
  intro ss
  induction ss with
  | nil =>
    intro chunks current hs
    simp at hs
  | cons s2 ss ih =>
    intro chunks current hs
    rcases List.mem_cons.mp hs with hs | hs
    · unfold chunkGo
      split
      · apply chunkGo_keeps_sub M overlap s c0 c1 hh hc0 hl hc1
        rw [hs]
        exact ⟨current ++ (if current = [] then [] else [' ']), [], by simp⟩
      · apply chunkGo_keeps_sub M overlap s c0 c1 hh hc0 hl hc1
        rw [hs]
        exact ⟨(if overlap < current.length then
            (if overlap = 0 then current else current.drop (current.length - overlap))
          else current) ++ [' '], [], by simp⟩
    · unfold chunkGo
      split
      · exact ih _ _ hs
      · exact ih _ _ hs

theorem sentGo_nil (mode : Bool) (acc : List Char) : sentGo mode acc [] = [acc.reverse] := rfl

theorem sentGo_true_ws (x : Char) (cs : List Char) (h : isWS x = true) :
    sentGo true [] (x :: cs) = sentGo true [] cs := by
  show (if isWS x then sentGo true [] cs else sentGo false [x] cs) = sentGo true [] cs
  rw [h]
  rfl

theorem sentGo_true_nws (x : Char) (cs : List Char) (h : isWS x = false) :
    sentGo true [] (x :: cs) = sentGo false [x] cs := by
  show (if isWS x then sentGo true [] cs else sentGo false [x] cs) = sentGo false [x] cs
  rw [h]
  rfl

theorem sentGo_false_sep (acc : List Char) (x : Char) (cs : List Char)
    (h : (isWS x && sentPunct acc) = true) :
    sentGo false acc (x :: cs) = acc.reverse :: sentGo true [] cs := by
  show (if isWS x && sentPunct acc then acc.reverse :: sentGo true [] cs
        else sentGo false (x :: acc) cs) = acc.reverse :: sentGo true [] cs
  rw [h]
  rfl

theorem sentGo_false_nosep (acc : List Char) (x : Char) (cs : List Char)
    (h : (isWS x && sentPunct acc) = false) :
    sentGo false acc (x :: cs) = sentGo false (x :: acc) cs := by
  show (if isWS x && sentPunct acc then acc.reverse :: sentGo true [] cs
        else sentGo false (x :: acc) cs) = sentGo false (x :: acc) cs
  rw [h]
  rfl

theorem glob_tail (acc : List Char) (x : Char) (cs : List Char)
    (hglob : ∀ c, (acc.reverse ++ x :: cs).getLast? = some c → isWS c = false) :
    ∀ c, cs.getLast? = some c → isWS c = false := by
  intro c hc
  apply hglob c
  cases cs with
  | nil => cases hc
  | cons y t =>
    rw [List.getLast?_append_of_ne_nil _ (by simp)]
    rw [List.getLast?_cons_cons]
    exact hc

theorem glob_shift (acc : List Char) (x : Char) (cs : List Char) :
    (x :: acc).reverse ++ cs = acc.reverse ++ x :: cs := by
  rw [List.reverse_cons, List.append_assoc]
  rfl

theorem sentGo_edges :
    ∀ (l : List Char) (mode : Bool) (acc : List Char),
      (mode = true → acc = []) →
      (mode = false → ∀ c, acc.getLast? = some c → isWS c = false) →
      (mode = false → acc = [] → ∀ c, l.head? = some c → isWS c = false) →
      (∀ c, (acc.reverse ++ l).getLast? = some c → isWS c = false) →
      ∀ s ∈ sentGo mode acc l, s ≠ [] →
        (∀ c, s.head? = some c → isWS c = false) ∧ (∀ c, s.getLast? = some c → isWS c = false) := by
  intro l
  induction l with
  | nil =>
    intro mode acc hmt hmf _ hglob s hs hne
    rw [sentGo_nil] at hs
    have hs2 : s = acc.reverse := List.mem_singleton.mp hs
    subst hs2
    have hacc : acc ≠ [] := by
      intro h
      rw [h] at hne
      simp at hne
    cases mode with
    | true => exact absurd (hmt rfl) hacc
    | false =>
      constructor
      · intro c hc
        rw [List.head?_reverse] at hc
        exact hmf rfl c hc
      · intro c hc
        apply hglob c
        rw [List.append_nil]
        exact hc
  | cons x cs ih =>
    intro mode acc hmt hmf hmf0 hglob s hs hne
    cases mode with
    | true =>
      have hacc := hmt rfl
      subst hacc
      cases hws : isWS x with
      | true =>
        rw [sentGo_true_ws x cs hws] at hs
        refine ih true [] (fun _ => rfl) (fun h => nomatch h) (fun h => nomatch h) ?_ s hs hne
        intro c hc
        exact glob_tail [] x cs hglob c hc
      | false =>
        rw [sentGo_true_nws x cs hws] at hs
        refine ih false [x] (fun h => nomatch h) ?_ (fun _ h => nomatch h) ?_ s hs hne
        · intro _ c hc
          simp only [List.getLast?_singleton, Option.some.injEq] at hc
          rw [← hc]
          exact hws
        · intro c hc
          apply hglob c
          simpa using hc
    | false =>
      cases hcond : (isWS x && sentPunct acc) with
      | true =>
        rw [sentGo_false_sep acc x cs hcond] at hs
        rcases List.mem_cons.mp hs with hs | hs
        · subst hs
          have hp : sentPunct acc = true := by
            simp at hcond
            exact hcond.2
          constructor
          · intro c hc
            rw [List.head?_reverse] at hc
            exact hmf rfl c hc
          · intro c hc
            rw [List.getLast?_reverse] at hc
            unfold sentPunct at hp
            rw [hc] at hp
            simp at hp
            have hp2 : c = '.' ∨ c = '?' ∨ c = '!' := by tauto
            rcases hp2 with h | h | h <;> rw [h] <;> decide
        · refine ih true [] (fun _ => rfl) (fun h => nomatch h) (fun h => nomatch h) ?_ s hs hne
          intro c hc
          simp only [List.reverse_nil, List.nil_append] at hc
          exact glob_tail acc x cs hglob c hc
      | false =>
        rw [sentGo_false_nosep acc x cs hcond] at hs
        refine ih false (x :: acc) (fun h => nomatch h) ?_ (fun _ h => nomatch h) ?_ s hs hne
        · intro _ c hc
          cases acc with
          | nil =>
            simp only [List.getLast?_singleton, Option.some.injEq] at hc
            rw [← hc]
            exact hmf0 rfl rfl x rfl
          | cons a t =>
            rw [List.getLast?_cons_cons] at hc
            exact hmf rfl c hc
        · intro c hc
          apply hglob c
          rw [← glob_shift acc x cs]
          exact hc

theorem sentSplit_edges (l : List Char)
    (hh : ∀ c, l.head? = some c → isWS c = false)
    (hl : ∀ c, l.getLast? = some c → isWS c = false) :
    ∀ s ∈ sentSplit l, s ≠ [] →
      (∀ c, s.head? = some c → isWS c = false) ∧ (∀ c, s.getLast? = some c → isWS c = false) := by
  apply sentGo_edges l false []
  · intro h
    cases h
  · intro _ c hc
    cases hc
  · intro _ _
    exact hh
  · intro c hc
    apply hl c
    simpa using hc

theorem rstripWS_prefixOf (m : List Char) : rstripWS m <+: m := by
  unfold rstripWS
  conv_rhs => rw [← List.reverse_reverse m]
  rw [ List.reverse_prefix]
  exact List.dropWhile_suffix isWS

theorem prefix_head?_eq {l1 l2 : List Char} (h : l1 <+: l2) (hne : l1 ≠ []) :
    l2.head? = l1.head? := by
  obtain ⟨t, rfl⟩ := h
  cases l1 with
  | nil => exact absurd rfl hne
  | cons a u => simp

theorem stripWS_head_not_ws (l : List Char) :
    ∀ c, (stripWS l).head? = some c → isWS c = false := by
  intro c hc
  have hne : stripWS l ≠ [] := by
    intro h
    rw [h] at hc
    cases hc
  have hpre : stripWS l <+: lstripWS l := rstripWS_prefixOf (lstripWS l)
  have hh : (lstripWS l).head? = some c := by
    rw [prefix_head?_eq hpre hne]
    exact hc
  have hdw := List.head?_dropWhile_not isWS l
  unfold lstripWS at hh
  rw [hh] at hdw
  exact hdw

theorem stripWS_last_not_ws (l : List Char) :
    ∀ c, (stripWS l).getLast? = some c → isWS c = false := by
  intro c hc
  unfold stripWS rstripWS at hc
  rw [List.getLast?_reverse] at hc
  have hdw := List.head?_dropWhile_not isWS (lstripWS l).reverse
  rw [hc] at hdw
  exact hdw

/-- C8 (amended): the Sentence Chunker never splits a sentence longer than
`max_length` mid-sentence — every such sentence occurs contiguously inside a
single output chunk; but that is not the only way a chunk may exceed
`max_length`: the overlap seed plus an ordinary sentence can also exceed it,
and (for `overlap ≥ 1`, the default is 120) every chunk's length is bounded by
`max(max_length, overlap + 1 + longest sentence length)`. -/
theorem c8_chunker_amended (text : List Char) (M overlap : Nat) (hov : 1 ≤ overlap) :
    (∀ c ∈ chunkText text M overlap, c.length ≤ max M (overlap + 1 + maxSentLen text)) ∧
    (∀ s ∈ sentSplit (stripWS text), M < s.length →
      ∃ c ∈ chunkText text M overlap, s <:+: c) := by
  constructor
  · intro c hc
    unfold chunkText at hc
    refine chunkGo_bound M overlap (max M (overlap + 1 + maxSentLen text)) (maxSentLen text)
      (Nat.le_max_left _ _) (Nat.le_max_right _ _) hov (sentSplit (stripWS text)) [] []
      (by intro r hr; simp at hr) (by simp) ?_ c hc
    intro s hs
    unfold maxSentLen
    exact listMax_mem _ _ (List.mem_map_of_mem _ hs)
  · intro s hs hlen
    have hne : s ≠ [] := by
      intro h
      rw [h] at hlen
      simp at hlen
    obtain ⟨c0, hc0⟩ := Option.isSome_iff_exists.mp (List.head?_isSome.mpr hne)
    obtain ⟨c1, hc1⟩ := Option.isSome_iff_exists.mp (List.getLast?_isSome.mpr hne)
    have hedge := sentSplit_edges (stripWS text) (stripWS_head_not_ws text)
      (stripWS_last_not_ws text) s hs hne
    unfold chunkText
    exact chunkGo_sentence_sub M overlap s c0 c1 hc0 (hedge.1 c0 hc0) hc1 (hedge.2 c1 hc1)
      (sentSplit (stripWS text)) [] [] hs

/-- C8 witness: the amended theorem at `max_length = 10`, `overlap = 2` on an
input whose second sentence has 13 > 10 characters. -/
theorem c8_chunker_amended_witness :
    1 ≤ 2 ∧
    ((∀ c ∈ chunkText "aaaa. bbbbbbbbbbbb.".toList 10 2,
        c.length ≤ max 10 (2 + 1 + maxSentLen "aaaa. bbbbbbbbbbbb.".toList)) ∧
     (∀ s ∈ sentSplit (stripWS "aaaa. bbbbbbbbbbbb.".toList), 10 < s.length →
        ∃ c ∈ chunkText "aaaa. bbbbbbbbbbbb.".toList 10 2, s <:+: c)) :=
  ⟨by decide, c8_chunker_amended "aaaa. bbbbbbbbbbbb.".toList 10 2 (by decide)⟩

/-- C8 counterexample: with `max_length = 10` the chunker emits the chunk
`aaaa. bbbbbb.` of length 13 > 10, which is not a single sentence of the
input — every sentence of the split has length at most 7 — so an oversized
single sentence is not the only way an output chunk's length can exceed
`max_length` (the overlap seed plus an ordinary sentence can exceed it too). -/
theorem c8_overflow_counterexample :
    chunkText c8CexText 10 120 = ["aaaa.".toList, "aaaa. bbbbbb.".toList] ∧
    (∃ c ∈ chunkText c8CexText 10 120, 10 < c.length ∧ c ∉ sentSplit (stripWS c8CexText)) ∧
    (∀ s ∈ sentSplit (stripWS c8CexText), s.length ≤ 10) := by
  decide

/-- C9 counterexample: a claim with a well-formed chunk index but a
non-numeric `start` offset makes Python's `int(...)` raise, aborting the whole
batch (`.error`), even though the remaining claim on its own renders fine —
so a malformed individual claim is not always silently omitted. -/
theorem c9_nonnumeric_counterexample :
    processEvidence .red [c9Chunk] [c9BadClaim, c9GoodClaim] = .error () ∧
    processEvidence .red [c9Chunk] [c9GoodClaim] =
      .ok [⟨c9Chunk, [("ab".toList, some .red), ("c".toList, none)]⟩] :=
  ⟨rfl, rfl⟩

/-- C1: for every chunk text and every span list whose clamped, sorted and
merged form lies within the text's bounds, the renderer walks the merged spans
left to right and the in-order concatenation of the emitted plain and
highlighted runs is exactly the original chunk text — no characters dropped,
reordered or duplicated. -/
theorem c1_render_reconstructs (text : List Char) (spans : List (Int × Int)) (color : Color)
    (hin : ∀ p ∈ mergeSpans (sortSpans (clampSpans spans)), p.2 ≤ text.length) :
    runsConcat (splitParagraphRuns text spans color) = text := by
  unfold splitParagraphRuns
  split
  · rename_i h
    rw [h]
    rfl
  · rename_i h
    rw [mergeSpans_eq_mergeRec]
    have hchain : chainOK 0 (mergeRec (sortSpans (clampSpans spans))) := by
      cases hl : sortSpans (clampSpans spans) with
      | nil =>
        simp only [mergeRec]
        trivial
      | cons q xs =>
        have hsorted : startsOrdered (q :: xs) := by
          rw [← hl]
          exact sortSpans_sorted _
        have hmemall : ∀ r ∈ q :: xs, r.1 ≤ r.2 := by
          intro r hr
          apply clampSpans_wf spans
          rw [← sortSpans_mem]
          rw [hl]
          exact hr
        exact mergeRec_chain xs q 0 (Nat.zero_le _) (hmemall q (List.mem_cons_self _ _))
          (fun r hr => hmemall r (List.mem_cons_of_mem _ hr)) hsorted
    have hr := renderRuns_concat text color _ 0 hchain
    rw [hr]
    simp

/-- C1 witness: the render property at the text `abcdef` with the overlapping
claimed spans `(1,3)` and `(2,5)` (which merge to `(1,5)`). -/
theorem c1_render_reconstructs_witness :
    (∀ p ∈ mergeSpans (sortSpans (clampSpans [((1 : Int), (3 : Int)), (2, 5)])),
      p.2 ≤ ("abcdef".toList).length) ∧
    runsConcat (splitParagraphRuns "abcdef".toList [(1, 3), (2, 5)] .red) = "abcdef".toList :=
  ⟨by decide, c1_render_reconstructs "abcdef".toList [(1, 3), (2, 5)] .red (by decide)⟩

/-- C2 (amended): for every claimed span `(start, end)` with `end > start`
and every chunk text, the clamped values satisfy
`0 ≤ start' ≤ end' ≤ len(text)` (for example `{start: 100, end: 200}` against
the 62-character example text clamps to `(62, 62)`); and whenever
`end' ≤ start'`, the claim yields no highlighted range: the gate returns
nothing and the rendered paragraph contains no highlighted run. -/
theorem c2_clamp_amended (text : List Char) (s e : Int) (hse : s < e) :
    0 ≤ clampOff text.length s ∧
    clampOff text.length s ≤ clampOff text.length e ∧
    clampOff text.length e ≤ (text.length : Int) ∧
    (clampOff text.length e ≤ clampOff text.length s →
      evHighlightRange text s e = none ∧
      ∀ color : Color, ∀ r ∈ (clausePara color text s e).runs, r.2 = none) := by
  refine ⟨?_, ?_, ?_, ?_⟩
  · unfold clampOff; omega
  · unfold clampOff; omega
  · unfold clampOff; omega
  · intro hle
    have hnone : evHighlightRange text s e = none := by
      unfold evHighlightRange
      rw [if_neg]
      omega
    refine ⟨hnone, ?_⟩
    intro color r hr
    unfold clausePara at hr
    rw [hnone] at hr
    simp only at hr
    split at hr
    · simp at hr
    · simp at hr
      rw [hr]

/-- C2 witness: the amended theorem applied to the 62-character example text
and the claim `{start: 100, end: 200}`. -/
theorem c2_clamp_amended_witness :
    (100 : Int) < 200 ∧
    (0 ≤ clampOff exampleChunkText.length 100 ∧
     clampOff exampleChunkText.length 100 ≤ clampOff exampleChunkText.length 200 ∧
     clampOff exampleChunkText.length 200 ≤ (exampleChunkText.length : Int) ∧
     (clampOff exampleChunkText.length 200 ≤ clampOff exampleChunkText.length 100 →
       evHighlightRange exampleChunkText 100 200 = none ∧
       ∀ color : Color, ∀ r ∈ (clausePara color exampleChunkText 100 200).runs, r.2 = none)) :=
  ⟨by decide, c2_clamp_amended exampleChunkText 100 200 (by decide)⟩

/-- C6 (amended): whenever the accumulated paragraph ends with a hyphen and
the next line — right-stripped — is non-blank and lowercase in Python's
`str.islower` sense (at least one cased character and no uppercase character,
so not merely "begins with a lowercase letter"), the trailing hyphen is
removed and the stripped line concatenated with no intervening space. -/
theorem c6_dehyphenation_amended (buf ln0 : List Char) (rest : List (List Char))
    (hb : buf ≠ []) (hh : endsHyphen buf = true)
    (hnb : stripWS (rstripWS ln0) ≠ [])
    (hl : pyIsLower (rstripWS ln0) = true) :
    mswGo buf (ln0 :: rest) = mswGo (buf.dropLast ++ stripWS (rstripWS ln0)) rest := by
  have hne : rstripWS ln0 ≠ [] := by
    intro h
    apply hnb
    rw [h]
    rfl
  have hemp : (rstripWS ln0).isEmpty = false := by
    cases h : rstripWS ln0 with
    | nil => exact absurd h hne
    | cons a t => rfl
  simp only [mswGo]
  rw [if_neg hnb, if_pos hb]
  rw [if_pos]
  simp [hh, hemp, hl]

/-- C6 witness: `agree-` followed by the all-lowercase line `ment of it`
de-hyphenates into a single accumulated paragraph `agreement of it`. -/
theorem c6_dehyphenation_amended_witness :
    endsHyphen "agree-".toList = true ∧
    pyIsLower (rstripWS "ment of it".toList) = true ∧
    mswGo "agree-".toList ["ment of it".toList] =
      mswGo ("agree-".toList.dropLast ++ stripWS (rstripWS "ment of it".toList)) [] :=
  ⟨by decide, by decide,
   c6_dehyphenation_amended "agree-".toList "ment of it".toList []
     (by decide) (by decide) (by decide) (by decide)⟩

/-- C9 (amended): a claim whose `chunk_index` is missing (the `-1` default) or
whose integer value lies outside the supplied chunk set is silently skipped
(`continue`) and leaves the rest of the batch untouched; by contrast a claim
with a non-numeric `chunk_index` or offset raises and aborts the whole batch
(see the counterexample). -/
theorem c9_skip_amended (color : Color) (chunks : List (List Char)) (ev : EvClaim)
    (rest : List EvClaim) (idx : Int)
    (hidx : pyIntCast ((ev.chunkIndex).getD (.vint (-1))) = .ok idx)
    (hrange : idx < 0 ∨ (chunks.length : Int) ≤ idx) :
    processEvidence color chunks (ev :: rest) = processEvidence color chunks rest := by
  simp only [processEvidence, hidx]
  rw [ebind_ok]
  rw [if_pos hrange]

/-- C9 witness: a claim with no `chunk_index` key is skipped and the rest of
the batch renders as if it were absent. -/
theorem c9_skip_amended_witness :
    pyIntCast (((⟨none, some ⟨some (.vint 0), some (.vint 2)⟩⟩ : EvClaim).chunkIndex).getD (.vint (-1))) =
      .ok (-1) ∧
    processEvidence .red [c9Chunk] [⟨none, some ⟨some (.vint 0), some (.vint 2)⟩⟩, c9GoodClaim] =
      processEvidence .red [c9Chunk] [c9GoodClaim] :=
  ⟨rfl, c9_skip_amended .red [c9Chunk] ⟨none, some ⟨some (.vint 0), some (.vint 2)⟩⟩
    [c9GoodClaim] (-1) rfl (by decide)⟩

/-- C10 (amended): every rendered evidence highlight of a violation item gets
its severity tier from the item's risk score `r` *and* its `violated` flag —
never from the span: when `violated` is true the tier is high (red) iff
`r ≥ 70`, medium (yellow) iff `40 ≤ r < 70` and low (bright green) otherwise;
when `violated` is false the tier is always low (the risk is replaced by 0). -/
theorem c10_severity_amended (risk : Int) (violated : Bool) (chunks : List (List Char))
    (evs : List EvClaim) (out : List EvPara)
    (hout : addClause risk violated chunks evs = .ok out)
    (p : EvPara) (hp : p ∈ out) (run : List Char × Option Color) (hr : run ∈ p.runs)
    (c : Color) (hc : run.2 = some c) :
    c = riskToColor (if violated then risk else 0) ∧
    (violated = true →
      ((c = .red ↔ 70 ≤ risk) ∧ (c = .yellow ↔ 40 ≤ risk ∧ risk < 70) ∧
       (c = .brightGreen ↔ risk < 40))) ∧
    (violated = false → c = .brightGreen) := by
  have hcol : c = riskToColor (if violated then risk else 0) :=
    processEvidence_colors _ chunks evs out hout p hp run hr c hc
  refine ⟨hcol, ?_, ?_⟩
  · intro hv
    rw [hv] at hcol
    rw [if_pos rfl] at hcol
    unfold riskToColor at hcol
    by_cases h70 : 70 ≤ risk
    · rw [if_pos h70] at hcol
      rw [hcol]
      refine ⟨by simp [h70], by simp; omega, by simp; omega⟩
    · rw [if_neg h70] at hcol
      by_cases h40 : 40 ≤ risk
      · rw [if_pos h40] at hcol
        rw [hcol]
        refine ⟨by simp; omega, by simp; omega, by simp; omega⟩
      · rw [if_neg h40] at hcol
        rw [hcol]
        refine ⟨by simp; omega, by simp; omega, by simp; omega⟩
  · intro hv
    rw [hv] at hcol
    rw [if_neg (by simp)] at hcol
    rw [hcol]
    rfl

/-- C10 witness: the amended theorem applied to a violated item with risk 90,
whose single evidence highlight renders red (high tier). -/
theorem c10_severity_amended_witness :
    Color.red = riskToColor (if true then (90 : Int) else 0) ∧
    (true = true →
      ((Color.red = .red ↔ (70 : Int) ≤ 90) ∧
       (Color.red = .yellow ↔ (40 : Int) ≤ 90 ∧ (90 : Int) < 70) ∧
       (Color.red = .brightGreen ↔ (90 : Int) < 40))) ∧
    (true = false → Color.red = .brightGreen) :=
  c10_severity_amended 90 true ["abcdef".toList]
    [⟨some (.vint 0), some ⟨some (.vint 0), some (.vint 2)⟩⟩]
    [⟨"abcdef".toList, [("ab".toList, some .red), ("cdef".toList, none)]⟩] rfl
    ⟨"abcdef".toList, [("ab".toList, some .red), ("cdef".toList, none)]⟩ (by decide)
    ("ab".toList, some .red) (by decide) .red rfl

/-- C10 counterexample: a violation item with `violated = false` and risk 90
renders its evidence highlight with the low tier (bright green), not the high
tier (red) the thresholds alone would dictate — the severity is derived from
the risk *and* the `violated` flag (`risk if violated else 0`). -/
theorem c10_violated_gate_counterexample :
    addClause 90 false ["abcdef".toList] [⟨some (.vint 0), some ⟨some (.vint 0), some (.vint 2)⟩⟩] =
      .ok [⟨"abcdef".toList, [("ab".toList, some .brightGreen), ("cdef".toList, none)]⟩] ∧
    Color.brightGreen ≠ Color.red :=
  ⟨rfl, by decide⟩


/-! ### Lemmas for the Section Builder invariant (C4) -/

theorem mem_dropWhile_of_not (p : Char → Bool) (c : Char) :
    ∀ l : List Char, c ∈ l → p c = false → c ∈ l.dropWhile p := by
  intro l
  induction l with
  | nil => intro h _; simp at h
  | cons x t ih =>
    intro h hc
    rw [List.dropWhile_cons]
    split
    · rename_i hpx
      rcases List.mem_cons.mp h with h | h
      · rw [h] at hc
        rw [hc] at hpx
        cases hpx
      · exact ih h hc
    · exact h

theorem stripWS_mem (c : Char) (l : List Char) (h : c ∈ l) (hc : isWS c = false) :
    c ∈ stripWS l := by
  unfold stripWS rstripWS lstripWS
  rw [List.mem_reverse]
  apply mem_dropWhile_of_not isWS c _ _ hc
  rw [List.mem_reverse]
  exact mem_dropWhile_of_not isWS c l h hc

theorem stripWS_ne_nil (l : List Char) (c : Char) (h : c ∈ l) (hc : isWS c = false) :
    stripWS l ≠ [] :=
  List.ne_nil_of_mem (stripWS_mem c l h hc)

theorem pySplitGo_ne_nil_of_acc :
    ∀ (l acc : List Char), acc ≠ [] → pySplitGo acc l ≠ [] := by
  intro l
  induction l with
  | nil =>
    intro acc hacc
    unfold pySplitGo
    rw [if_neg hacc]
    simp
  | cons c t ih =>
    intro acc hacc
    unfold pySplitGo
    by_cases hws : isWS c = true
    · rw [if_pos hws, if_neg hacc]
      simp
    · rw [if_neg hws]
      exact ih (c :: acc) (by simp)

theorem pySplitGo_ne_nil :
    ∀ (l acc : List Char), (∃ c ∈ l, isWS c = false) → pySplitGo acc l ≠ [] := by
  intro l
  induction l with
  | nil =>
    intro acc h
    obtain ⟨c, hc, _⟩ := h
    simp at hc
  | cons x t ih =>
    intro acc h
    obtain ⟨c, hc, hcw⟩ := h
    unfold pySplitGo
    by_cases hwx : isWS x = true
    · rw [if_pos hwx]
      have hct : c ∈ t := by
        rcases List.mem_cons.mp hc with h2 | h2
        · rw [h2] at hcw
          rw [hcw] at hwx
          cases hwx
        · exact h2
      by_cases hae : acc = []
      · rw [if_pos hae]
        exact ih [] ⟨c, hct, hcw⟩
      · rw [if_neg hae]
        simp
    · rw [if_neg hwx]
      exact pySplitGo_ne_nil_of_acc t (x :: acc) (by simp)

theorem pySplitGo_tokens :
    ∀ (l acc : List Char), (∀ c ∈ acc, isWS c = false) →
      ∀ w ∈ pySplitGo acc l, w ≠ [] ∧ ∀ c ∈ w, isWS c = false := by
  intro l
  induction l with
  | nil =>
    intro acc hacc w hw
    unfold pySplitGo at hw
    by_cases hae : acc = []
    · rw [if_pos hae] at hw
      simp at hw
    · rw [if_neg hae] at hw
      rw [List.mem_singleton.mp hw]
      constructor
      · simp [hae]
      · intro c hc
        exact hacc c (List.mem_reverse.mp hc)
  | cons x t ih =>
    intro acc hacc w hw
    unfold pySplitGo at hw
    by_cases hwx : isWS x = true
    · rw [if_pos hwx] at hw
      by_cases hae : acc = []
      · rw [if_pos hae] at hw
        exact ih [] (by simp) w hw
      · rw [if_neg hae] at hw
        rcases List.mem_cons.mp hw with hw | hw
        · rw [hw]
          constructor
          · simp [hae]
          · intro c hc
            exact hacc c (List.mem_reverse.mp hc)
        · exact ih [] (by simp) w hw
    · rw [if_neg hwx] at hw
      refine ih (x :: acc) ?_ w hw
      intro c hc
      rcases List.mem_cons.mp hc with hc | hc
      · rw [hc]
        simp at hwx
        exact hwx
      · exact hacc c hc

theorem joinSep_mem_head (sep : Char) (w : List Char) (rest : List (List Char)) (c : Char)
    (hc : c ∈ w) : c ∈ joinSep sep (w :: rest) := by
  cases rest with
  | nil => exact hc
  | cons w2 r2 =>
    unfold joinSep
    exact List.mem_append_left _ hc

theorem joinWords_pySplit_nonws (s : List Char) (c0 : Char) (h0 : c0 ∈ s)
    (hw0 : isWS c0 = false) :
    ∃ c ∈ joinWords (pySplit s), isWS c = false := by
  unfold joinWords pySplit
  have hne := pySplitGo_ne_nil s [] ⟨c0, h0, hw0⟩
  cases hts : pySplitGo [] s with
  | nil => exact absurd hts hne
  | cons w rest =>
    have hwt := pySplitGo_tokens s [] (by simp) w (by rw [hts]; exact List.mem_cons_self _ _)
    obtain ⟨hwne, hwc⟩ := hwt
    cases w with
    | nil => exact absurd rfl hwne
    | cons a u =>
      refine ⟨a, ?_, hwc a (List.mem_cons_self _ _)⟩
      exact joinSep_mem_head ' ' (a :: u) rest a (List.mem_cons_self _ _)

theorem firstSentence_nonws (b : List Char) (limit : Nat) :
    ∃ c ∈ firstSentence b limit, isWS c = false := by
  unfold firstSentence
  dsimp only
  by_cases hlim : limit < (joinWords (pySplit (firstSentenceCut (stripWS b)))).length
  · rw [if_pos hlim]
    rw [if_neg (by simp)]
    exact ⟨'…', List.mem_append_right _ (List.mem_singleton_self _), by decide⟩
  · rw [if_neg hlim]
    by_cases hjw : joinWords (pySplit (firstSentenceCut (stripWS b))) = []
    · rw [if_pos hjw]
      exact ⟨'U', by simp, by decide⟩
    · rw [if_neg hjw]
      cases hts : pySplitGo [] (firstSentenceCut (stripWS b)) with
      | nil =>
        exfalso
        apply hjw
        unfold joinWords pySplit
        rw [hts]
        rfl
      | cons w rest =>
        have hwt := pySplitGo_tokens (firstSentenceCut (stripWS b)) [] (by simp) w
          (by rw [hts]; exact List.mem_cons_self _ _)
        obtain ⟨hwne, hwc⟩ := hwt
        cases w with
        | nil => exact absurd rfl hwne
        | cons a u =>
          refine ⟨a, ?_, hwc a (List.mem_cons_self _ _)⟩
          show a ∈ joinWords (pySplit (firstSentenceCut (stripWS b)))
          unfold joinWords pySplit
          rw [hts]
          exact joinSep_mem_head ' ' (a :: u) rest a (List.mem_cons_self _ _)

theorem reDefNumMatch_dot :
    ∀ (l : List Char) (m : DefNumMatch), reDefNumMatch l = some m → ('.' : Char) ∈ m.num := by
  intro l m h
  unfold reDefNumMatch at h
  dsimp only at h
  repeat' split at h
  all_goals cases h
  all_goals simp

theorem pageUpd_inv (T : Int) (pno : Int) (hp1 : 1 ≤ pno) (hpT : pno ≤ T)
    (omin omax : Option Int) (h : pageOKInv T omin omax) :
    pageOKInv T (some (pageMinUpd omin pno)) (some (pageMaxUpd omax pno)) := by
  unfold pageMinUpd pageMaxUpd
  cases omin with
  | none =>
    cases omax with
    | none => exact ⟨hp1, Int.le_refl pno, hpT⟩
    | some b => simp [pageOKInv] at h
  | some a =>
    cases omax with
    | none => simp [pageOKInv] at h
    | some b =>
      simp only [pageOKInv] at h ⊢
      omega

theorem flushTitle_ne_nil (maxT : Nat) (o : Option (List Char)) (body : List Char)
    (hto : ∀ t, o = some t → ∃ c ∈ t, isWS c = false) :
    stripWS (rawTitleOf maxT o body) ≠ [] := by
  unfold rawTitleOf
  cases o with
  | none =>
    obtain ⟨c, hc, hcw⟩ := firstSentence_nonws body maxT
    exact stripWS_ne_nil _ c hc hcw
  | some t =>
    dsimp only
    by_cases ht : t ≠ []
    · rw [if_pos ht]
      obtain ⟨c, hc, hcw⟩ := hto t rfl
      exact stripWS_ne_nil _ c hc hcw
    · rw [if_neg ht]
      obtain ⟨c, hc, hcw⟩ := firstSentence_nonws body maxT
      exact stripWS_ne_nil _ c hc hcw

theorem flushState_sections (maxT : Nat) (st : SectState)
    (hg : ¬(st.curBody = [] ∧ pyTruthyTitle st.curTitle = false)) :
    (flushState maxT st).sections =
      st.sections ++
        [⟨stripWS (rawTitleOf maxT st.curTitle (stripWS (joinSep '\n' (mergeSoftWraps st.curBody)))),
          stripWS (joinSep '\n' (mergeSoftWraps st.curBody)),
          pyOrInt st.curMin 1, pyOrInt st.curMax (pyOrInt st.curMin 1)⟩] := by
  unfold flushState
  rw [if_neg hg]

theorem flushState_fields (maxT : Nat) (st : SectState)
    (hg : ¬(st.curBody = [] ∧ pyTruthyTitle st.curTitle = false)) :
    (flushState maxT st).curTitle = none ∧ (flushState maxT st).curMin = none ∧
      (flushState maxT st).curMax = none := by
  unfold flushState
  rw [if_neg hg]
  exact ⟨rfl, rfl, rfl⟩

theorem flushState_inv (T : Int) (maxT : Nat) (hT : 1 ≤ T) (st : SectState)
    (h : sectInv T st) : sectInv T (flushState maxT st) := by
  by_cases hg : st.curBody = [] ∧ pyTruthyTitle st.curTitle = false
  · unfold flushState
    rw [if_pos hg]
    exact h
  · have hsec := flushState_sections maxT st hg
    have hfields := flushState_fields maxT st hg
    have hpages : 1 ≤ pyOrInt st.curMin 1 ∧
        pyOrInt st.curMin 1 ≤ pyOrInt st.curMax (pyOrInt st.curMin 1) ∧
        pyOrInt st.curMax (pyOrInt st.curMin 1) ≤ T := by
      have hp := h.2.1
      cases hmin : st.curMin with
      | none =>
        cases hmax : st.curMax with
        | none =>
          simp only [pyOrInt]
          omega
        | some b =>
          rw [hmin, hmax] at hp
          simp [pageOKInv] at hp
      | some a =>
        cases hmax : st.curMax with
        | none =>
          rw [hmin, hmax] at hp
          simp [pageOKInv] at hp
        | some b =>
          rw [hmin, hmax] at hp
          simp only [pageOKInv] at hp
          simp only [pyOrInt]
          rw [if_neg (by omega), if_neg (by omega)]
          omega
    refine ⟨?_, ?_, ?_⟩
    · intro s hs
      rw [hsec] at hs
      rcases List.mem_append.mp hs with hs | hs
      · exact h.1 s hs
      · rw [List.mem_singleton.mp hs]
        exact ⟨flushTitle_ne_nil maxT st.curTitle
          (stripWS (joinSep '\n' (mergeSoftWraps st.curBody))) h.2.2,
          hpages.1, hpages.2.1, hpages.2.2⟩
    · rw [hfields.2.1, hfields.2.2]
      trivial
    · intro t ht
      rw [hfields.1] at ht
      exact nomatch ht

theorem maybeFlush_inv (T : Int) (maxT : Nat) (hT : 1 ≤ T) (st : SectState)
    (h : sectInv T st) : sectInv T (maybeFlush maxT st) := by
  unfold maybeFlush
  split
  · exact flushState_inv T maxT hT st h
  · exact h

theorem applyDefHeader_inv (T : Int) (maxT : Nat) (hT : 1 ≤ T) (st : SectState)
    (m : DefNumMatch) (hdot : ('.' : Char) ∈ m.num) (h : sectInv T st) :
    sectInv T (applyDefHeader maxT st m) := by
  unfold applyDefHeader
  have h2 := maybeFlush_inv T maxT hT st h
  refine ⟨h2.1, h2.2.1, ?_⟩
  intro t ht
  have hteq : (defHeaderOf m).1 = t := Option.some.inj ht
  rw [← hteq]
  exact ⟨'.', List.mem_append_left _ hdot, by decide⟩

theorem segStep_inv (T : Int) (maxT : Nat) (hT : 1 ≤ T) (st : SectState) (seg : List Char)
    (h : sectInv T st) : sectInv T (segStep maxT st seg) := by
  unfold segStep
  cases hm : reDefNumMatch seg with
  | some m => exact applyDefHeader_inv T maxT hT st m (reDefNumMatch_dot seg m hm) h
  | none => exact ⟨h.1, h.2.1, h.2.2⟩

theorem foldl_segStep_inv (T : Int) (maxT : Nat) (hT : 1 ≤ T) :
    ∀ (segs : List (List Char)) (st : SectState), sectInv T st →
      sectInv T (List.foldl (segStep maxT) st segs) := by
  intro segs
  induction segs with
  | nil => intro st h; exact h
  | cons seg rest ih =>
    intro st h
    rw [List.foldl_cons]
    exact ih _ (segStep_inv T maxT hT st seg h)

theorem stepLine_inv (T : Int) (maxT : Nat) (hT : 1 ≤ T) (st : SectState) (pno : Int)
    (ln : List Char) (rest : List (Int × List Char)) (hp1 : 1 ≤ pno) (hpT : pno ≤ T)
    (h : sectInv T st) : sectInv T (stepLine maxT st pno ln rest) := by
  unfold stepLine
  dsimp only
  split
  · exact foldl_segStep_inv T maxT hT _ st h
  · split
    · rename_i m hm
      exact applyDefHeader_inv T maxT hT st m (reDefNumMatch_dot ln m hm) h
    · split
      · rename_i hcond
        have h2 := maybeFlush_inv T maxT hT st h
        refine ⟨h2.1, pageUpd_inv T pno hp1 hpT _ _ h2.2.1, ?_⟩
        intro t ht
        have hteq : joinWords (pySplit (stripWS ln)) = t := Option.some.inj ht
        rw [← hteq]
        have hne : stripWS ln ≠ [] := hcond.1
        obtain ⟨a, u, hsl⟩ : ∃ a u, stripWS ln = a :: u := by
          cases hsl2 : stripWS ln with
          | nil => exact absurd hsl2 hne
          | cons a u => exact ⟨a, u, rfl⟩
        have haw : isWS a = false := stripWS_head_not_ws ln a (by rw [hsl]; rfl)
        have ham : a ∈ stripWS ln := by
          rw [hsl]
          exact List.mem_cons_self _ _
        exact joinWords_pySplit_nonws (stripWS ln) a ham haw
      · exact ⟨h.1, pageUpd_inv T pno hp1 hpT _ _ h.2.1, h.2.2⟩

theorem sectLoop_inv (T : Int) (maxT : Nat) (hT : 1 ≤ T) :
    ∀ (lines : List (Int × List Char)) (st : SectState),
      sectInv T st → (∀ l ∈ lines, 1 ≤ l.1 ∧ l.1 ≤ T) →
      sectInv T (sectLoop maxT st lines) := by
  intro lines
  induction lines with
  | nil => intro st h _; exact h
  | cons p rest ih =>
    intro st h hl
    unfold sectLoop
    refine ih _ ?_ (fun l hl2 => hl l (List.mem_cons_of_mem _ hl2))
    exact stepLine_inv T maxT hT st p.1 p.2 rest (hl p (List.mem_cons_self _ _)).1
      (hl p (List.mem_cons_self _ _)).2 h

theorem foldl_maxI_init :
    ∀ (l : List (Int × List Char)) (a : Int), a ≤ l.foldl (fun a p => max a p.1) a := by
  intro l
  induction l with
  | nil => intro a; simp
  | cons p t ih =>
    intro a
    rw [List.foldl_cons]
    exact le_trans (le_max_left a p.1) (ih (max a p.1))

theorem pno_le_foldl_maxI :
    ∀ (l : List (Int × List Char)) (a : Int) (p : Int × List Char), p ∈ l →
      p.1 ≤ l.foldl (fun a q => max a q.1) a := by
  intro l
  induction l with
  | nil => intro a p hp; simp at hp
  | cons q t ih =>
    intro a p hp
    rw [List.foldl_cons]
    rcases List.mem_cons.mp hp with hp | hp
    · rw [hp]
      exact le_trans (le_max_right a q.1) (foldl_maxI_init t (max a q.1))
    · exact ih (max a q.1) p hp

theorem pno_le_totalPages (paged : List (Int × List Char)) (p : Int × List Char)
    (hp : p ∈ paged) : p.1 ≤ totalPages paged :=
  pno_le_foldl_maxI paged 0 p hp

theorem pageFlatten_pages (paged : List (Int × List Char)) (l : Int × List Char)
    (h : l ∈ pageFlatten paged) : ∃ ptxt, (l.1, ptxt) ∈ paged := by
  unfold pageFlatten at h
  rw [List.mem_flatMap] at h
  obtain ⟨p, hp, hl⟩ := h
  rw [List.mem_map] at hl
  obtain ⟨ln, _, rfl⟩ := hl
  exact ⟨p.2, by simpa using hp⟩

theorem initState_inv (T : Int) : sectInv T initState := by
  refine ⟨?_, trivial, fun t ht => nomatch ht⟩
  intro s hs
  simp [initState] at hs

/-- C4: under the extractor precondition that page numbers are 1-based and
monotonically non-decreasing, every Section emitted by the Section Builder has
a non-empty title and page numbers with
`1 ≤ page_start ≤ page_end ≤ total number of pages in the input` (the total
being the greatest page number occurring). -/
theorem c4_sections_invariant (paged : List (Int × List Char))
    (hmono : nonDecPages paged) (hbase : ∀ p ∈ paged, 1 ≤ p.1) :
    ∀ s ∈ sectionTextWithPages paged 160,
      s.title ≠ [] ∧ 1 ≤ s.page_start ∧ s.page_start ≤ s.page_end ∧
      s.page_end ≤ totalPages paged := by
  intro s hs
  unfold sectionTextWithPages at hs
  have hs2 := List.mem_of_mem_filter hs
  cases hlines : pageFlatten paged with
  | nil =>
    rw [hlines] at hs2
    have hempty : (flushState 160 (sectLoop 160 initState [])).sections = [] := by rfl
    rw [hempty] at hs2
    simp at hs2
  | cons l0 ltail =>
    have hpages : ∀ l ∈ pageFlatten paged, 1 ≤ l.1 ∧ l.1 ≤ totalPages paged := by
      intro l hl
      obtain ⟨pt, hmem⟩ := pageFlatten_pages paged l hl
      exact ⟨hbase (l.1, pt) hmem, pno_le_totalPages paged (l.1, pt) hmem⟩
    have hT1 : 1 ≤ totalPages paged := by
      have h0 : l0 ∈ pageFlatten paged := by
        rw [hlines]
        exact List.mem_cons_self _ _
      exact le_trans (hpages l0 h0).1 (hpages l0 h0).2
    have hloop := sectLoop_inv (totalPages paged) 160 hT1 (pageFlatten paged) initState
      (initState_inv _) hpages
    have hflush := flushState_inv (totalPages paged) 160 hT1 _ hloop
    exact hflush.1 s hs2

/-- C4 witness: the invariant applied to the three-line example input on
page 1. -/
theorem c4_sections_invariant_witness :
    (∀ p ∈ [((1 : Int), c3Input)], 1 ≤ p.1) ∧
    (∀ s ∈ sectionTextWithPages [((1 : Int), c3Input)] 160,
      s.title ≠ [] ∧ 1 ≤ s.page_start ∧ s.page_start ≤ s.page_end ∧
      s.page_end ≤ totalPages [((1 : Int), c3Input)]) :=
  ⟨by decide, c4_sections_invariant [((1 : Int), c3Input)] trivial (by decide)⟩

end CVH
